import Mathlib

/-!
Verification of the `explode` repository (a Rust streaming decompressor for
the PKWARE implode format) against its natural-language specification.

The Rust sources are shallowly embedded below:

* `src/codes.rs`   : `CanonicalHuffman`, `Decoder::feed`,
  `CanonicalHuffman::new_from_lengths`, `CanonicalHuffman::decode`.
* `src/tables.rs`  : the three static tables `LITERAL`, `LENGTH`, `DISTANCE`.
* `src/explode.rs` : the resumable state machine (`Explode`,
  `ExplodeInput`, `ExplodeBuffer::feed`, `explode_with_buffer`, `explode`).
* `src/decoder.rs` : only its `Copy`-arm index update is needed
  (`decoderCopyAdvance`), embedded next to the `explode.rs` form.

Machine integers are modelled as `Nat` with explicit `% 2 ^ w` reductions
where the Rust code can wrap (`u8` tallies and `symbols_left` in
`new_from_lengths`, the `u32` code accumulators of the bit decoder, the
`u32` bit buffer).  Rust `panic!` and out-of-bounds indexing are modelled
as a distinguished `Fault` outcome, never as a default value, so that
"never panics" claims are statable.  Fallible operations return their
error together with the mutated state, matching the fact that in Rust the
partial mutations through `&mut self` persist when `?` propagates an
error.
-/

/-! ## src/codes.rs : canonical Huffman tables and the bit-at-a-time decoder -/

/-- `CanonicalHuffman` from src/codes.rs.  `counts` and `symbols` hold `u8`
values (the `T = Vec<u8>` / `&[u8]` instantiations of the Rust struct). -/
structure CanonicalHuffman where
  max_len : Nat
  counts : List Nat
  symbols : List Nat
deriving DecidableEq

/-- `DecodeResult` from src/codes.rs. -/
inductive DecodeResult where
  | Incomplete
  | Invalid
  | Ok (v : Nat)
deriving DecidableEq

/-- The mutable cursor fields of `Decoder` from src/codes.rs (`code`,
`bits`, `index`, `first`; the codebook is passed separately). -/
structure HuffDecoder where
  code : Nat
  bits : Nat
  index : Nat
  first : Nat
deriving DecidableEq

/-- `CanonicalHuffman::decoder`: the zeroed cursor. -/
def HuffDecoder.fresh : HuffDecoder := ⟨0, 0, 0, 0⟩

/-- `Decoder::feed` from src/codes.rs, one bit at a time.  `code` and
`first` are `u32` in Rust, hence the `% 2 ^ 32` on the shifts.  The result
is `none` exactly when the Rust code would panic with an out-of-bounds
index into `counts` or `symbols`.  (The subtraction `code - first` is
in-bounds, i.e. `first ≤ code`, on every decoder state this development
evaluates the function at, so `Nat` truncation and `u32` wrapping agree.) -/
def HuffDecoder.feed (cb : CanonicalHuffman) (d : HuffDecoder) (bit : Bool) :
    Option (DecodeResult × HuffDecoder) :=
  let code := d.code ||| (if bit then 1 else 0)
  let bits := d.bits + 1
  if cb.max_len ≤ bits then
    -- this can happen with an empty table
    some (.Invalid, { d with code := code, bits := bits })
  else
    match cb.counts.get? bits with
    | none => none
    | some count =>
      if code < d.first + count then
        -- this is a valid symbol
        match cb.symbols.get? (d.index + (code - d.first)) with
        | none => none
        | some s => some (.Ok s, { d with code := code, bits := bits })
      else if d.first + count < code then
        -- this is an invalid symbol
        some (.Invalid, { d with code := code, bits := bits })
      else if cb.max_len ≤ bits + 1 then
        -- this is also invalid
        some (.Invalid, { d with code := code, bits := bits })
      else
        -- this is an incomplete symbol
        some (.Incomplete,
          { code := (code <<< 1) % 4294967296,
            bits := bits,
            index := d.index + count,
            first := ((d.first + count) <<< 1) % 4294967296 })

/-- The loop body of `CanonicalHuffman::decode` from src/codes.rs.  Outer
`none` is a Rust panic (out-of-bounds index inside `feed`); `some none` is
the Rust `None` (invalid code, or the bit list ran out). -/
def decodeGo (cb : CanonicalHuffman) : HuffDecoder → List Bool → Option (Option Nat)
  | _, [] => some none
  | d, b :: rest =>
    match HuffDecoder.feed cb d b with
    | none => none
    | some (.Incomplete, d') => decodeGo cb d' rest
    | some (.Invalid, _) => some none
    | some (.Ok c, _) => some (some c)

/-- `CanonicalHuffman::decode` from src/codes.rs. -/
def CanonicalHuffman.decode (cb : CanonicalHuffman) (bits : List Bool) :
    Option (Option Nat) :=
  decodeGo cb HuffDecoder.fresh bits

/-- The tally loop of `new_from_lengths`:
`for len in lengths { counts[len] += 1 }` with `counts : Vec<u8>`, so each
cell wraps at 256 (release-mode Rust semantics; a debug build would panic
at the 256th increment).  `List.set` on an out-of-range index is a no-op
where Rust would panic, but every length is below `max_len` whenever
`max_len` was computed without `u8` wrap, which covers every use in this
development. -/
def tallyLengths (max_len : Nat) (lengths : List Nat) : List Nat :=
  lengths.foldl (fun counts len => counts.set len ((counts.getD len 0 + 1) % 256))
    (List.replicate max_len 0)

/-- `CanonicalHuffman::new_from_lengths` from src/codes.rs.  The
oversubscription walk keeps `symbols_left` in a `u8` (its type is forced
by the comparison with `counts[len]`), so the doubling `symbols_left <<= 1`
wraps at 256; `(max + 1)` is also a `u8` addition. -/
def CanonicalHuffman.new_from_lengths (lengths : List Nat) : Option CanonicalHuffman :=
  let max_len := (lengths.foldr Nat.max 0 + 1) % 256
  let counts := tallyLengths max_len lengths
  if counts.getD 0 0 = lengths.length then
    -- empty table
    some ⟨max_len, counts, []⟩
  else
    -- check for oversubscription; one code of length zero
    match (List.range' 1 (max_len - 1)).foldlM
        (fun (symbols_left : Nat) len =>
          -- one more bit doubles the number of symbols left (u8 shift)
          let symbols_left := (symbols_left <<< 1) % 256
          if symbols_left < counts.getD len 0 then none
          else some (symbols_left - counts.getD len 0)) 1 with
    | none => none
    | some _ =>
      -- helper to build the symbol table
      let offsets := (List.range' 1 (max_len - 1 - 1)).foldl
        (fun offsets len => offsets.set (len + 1) (offsets.getD len 0 + counts.getD len 0))
        (List.replicate max_len 0)
      -- okay, finally build the symbol table
      let built := lengths.enum.foldl
        (fun (p : List Nat × List Nat) sl =>
          if 0 < sl.2 then
            (p.1.set sl.2 (p.1.getD sl.2 0 + 1), p.2.set (p.1.getD sl.2 0) (sl.1 % 256))
          else p)
        (offsets, List.replicate lengths.length 0)
      some ⟨max_len, counts, built.2⟩

/-! ## src/tables.rs : the three format-defined static tables -/

/-- `LITERAL` from src/tables.rs (`CanonicalHuffman::new` sets
`max_len = counts.len()`). -/
def LITERAL : CanonicalHuffman :=
  ⟨14, [0, 0, 0, 0, 1, 11, 20, 21, 16, 7, 5, 10, 91, 74],
   [0x20, 0x45, 0x61, 0x65, 0x69, 0x6c, 0x6e, 0x6f, 0x72, 0x73, 0x74,
    0x75, 0x2d, 0x31, 0x41, 0x43, 0x44, 0x49, 0x4c, 0x4e, 0x4f, 0x52,
    0x53, 0x54, 0x62, 0x63, 0x64, 0x66, 0x67, 0x68, 0x6d, 0x70, 0x0a,
    0x0d, 0x28, 0x29, 0x2c, 0x2e, 0x30, 0x32, 0x33, 0x34, 0x35, 0x37,
    0x38, 0x3d, 0x42, 0x46, 0x4d, 0x50, 0x55, 0x6b, 0x77, 0x09, 0x22,
    0x27, 0x2a, 0x2f, 0x36, 0x39, 0x3a, 0x47, 0x48, 0x57, 0x5b, 0x5f,
    0x76, 0x78, 0x79, 0x2b, 0x3e, 0x4b, 0x56, 0x58, 0x59, 0x5d, 0x21,
    0x24, 0x26, 0x71, 0x7a, 0x00, 0x3c, 0x3f, 0x4a, 0x51, 0x5a, 0x5c,
    0x6a, 0x7b, 0x7c, 0x01, 0x02, 0x03, 0x04, 0x05, 0x06, 0x07, 0x08,
    0x0b, 0x0c, 0x0e, 0x0f, 0x10, 0x11, 0x12, 0x13, 0x14, 0x15, 0x16,
    0x17, 0x18, 0x19, 0x1b, 0x1c, 0x1d, 0x1e, 0x1f, 0x23, 0x25, 0x3b,
    0x40, 0x5e, 0x60, 0x7d, 0x7e, 0x7f, 0xb0, 0xb1, 0xb2, 0xb3, 0xb4,
    0xb5, 0xb6, 0xb7, 0xb8, 0xb9, 0xba, 0xbb, 0xbc, 0xbd, 0xbe, 0xbf,
    0xc0, 0xc1, 0xc2, 0xc3, 0xc4, 0xc5, 0xc6, 0xc7, 0xc8, 0xc9, 0xca,
    0xcb, 0xcc, 0xcd, 0xce, 0xcf, 0xd0, 0xd1, 0xd2, 0xd3, 0xd4, 0xd5,
    0xd6, 0xd7, 0xd8, 0xd9, 0xda, 0xdb, 0xdc, 0xdd, 0xde, 0xdf, 0xe1,
    0xe5, 0xe9, 0xee, 0xf2, 0xf3, 0xf4, 0x1a, 0x80, 0x81, 0x82, 0x83,
    0x84, 0x85, 0x86, 0x87, 0x88, 0x89, 0x8a, 0x8b, 0x8c, 0x8d, 0x8e,
    0x8f, 0x90, 0x91, 0x92, 0x93, 0x94, 0x95, 0x96, 0x97, 0x98, 0x99,
    0x9a, 0x9b, 0x9c, 0x9d, 0x9e, 0x9f, 0xa0, 0xa1, 0xa2, 0xa3, 0xa4,
    0xa5, 0xa6, 0xa7, 0xa8, 0xa9, 0xaa, 0xab, 0xac, 0xad, 0xae, 0xaf,
    0xe0, 0xe2, 0xe3, 0xe4, 0xe6, 0xe7, 0xe8, 0xea, 0xeb, 0xec, 0xed,
    0xef, 0xf0, 0xf1, 0xf5, 0xf6, 0xf7, 0xf8, 0xf9, 0xfa, 0xfb, 0xfc,
    0xfd, 0xfe, 0xff]⟩

/-- `LENGTH` from src/tables.rs. -/
def LENGTH : CanonicalHuffman :=
  ⟨8, [0, 0, 1, 3, 3, 4, 3, 2],
   [0x0, 0x1, 0x2, 0x3, 0x4, 0x5, 0x6, 0x7, 0x8, 0x9, 0xa, 0xb, 0xc,
    0xd, 0xe, 0xf]⟩

/-- `DISTANCE` from src/tables.rs. -/
def DISTANCE : CanonicalHuffman :=
  ⟨9, [0, 0, 1, 0, 2, 4, 15, 26, 16],
   [0x00, 0x01, 0x02, 0x03, 0x04, 0x05, 0x06, 0x07, 0x08, 0x09, 0x0a,
    0x0b, 0x0c, 0x0d, 0x0e, 0x0f, 0x10, 0x11, 0x12, 0x13, 0x14, 0x15,
    0x16, 0x17, 0x18, 0x19, 0x1a, 0x1b, 0x1c, 0x1d, 0x1e, 0x1f, 0x20,
    0x21, 0x22, 0x23, 0x24, 0x25, 0x26, 0x27, 0x28, 0x29, 0x2a, 0x2b,
    0x2c, 0x2d, 0x2e, 0x2f, 0x30, 0x31, 0x32, 0x33, 0x34, 0x35, 0x36,
    0x37, 0x38, 0x39, 0x3a, 0x3b, 0x3c, 0x3d, 0x3e, 0x3f]⟩

/-! ## Spec-side predicate (for stating the oversubscription claims)

The claims define oversubscription by an exact-arithmetic walk; the code
performs the same walk in a `u8`.  The predicate below follows the claim
wording and is used only to state the claims, never as part of the code
embedding. -/

/-- Modelled from the claim/spec wording: a code-length list is
oversubscribed when, walking lengths from 1 upward with an available code
count starting at 1, doubling at each length and subtracting that length's
tally, the available count ever goes negative.  Exact (unbounded) integer
arithmetic, per the claim. -/
def specOversubscribed (lengths : List Nat) : Bool :=
  ((List.range' 1 (lengths.foldr Nat.max 0)).foldlM
    (fun (available : Int) len =>
      let available := 2 * available - (lengths.countP (fun l => l = len) : Int)
      if available < 0 then none else some available) 1).isNone

/-! ## src/error.rs : the error taxonomy

The `IO` variant wraps a host `std::io::Error` and is never constructed by
the core engine, so it is omitted from the embedding. -/

/-- `Error` from src/error.rs (without the `IO` passthrough variant, which
the engine itself never produces). -/
inductive Error where
  | IncompleteInput
  | BadLiteralFlag
  | BadDictionary
  | BadDistance
deriving DecidableEq

/-- A Rust `panic!` (process abort), tagged by its origin: the
`"double take"` panic of `ExplodeInputState::take`, the
`"Codebooks are under-subscribed but should not be!"` panic of
`ExplodeInput::decode`, or an out-of-bounds slice index. -/
inductive Fault where
  | doubleTake
  | invalidSymbol
  | indexOutOfBounds
deriving DecidableEq

/-! ## src/explode.rs : the resumable decompression engine -/

/-- `ExplodeInputState` from src/explode.rs: the one-byte input slot. -/
inductive ExplodeInputState where
  | Available (v : Nat)
  | Taken
  | Waiting
deriving DecidableEq

/-- `ExplodeInputState::feed`: offer a byte; only a `Waiting` slot accepts it. -/
def ExplodeInputState.feed (s : ExplodeInputState) (value : Nat) : ExplodeInputState :=
  match s with
  | .Waiting => .Available value
  | s => s

/-- `ExplodeInputState::take`.  `Taken` flips to `Waiting` and reports
`IncompleteInput`; taking from `Waiting` is the `"double take"` panic. -/
def ExplodeInputState.take :
    ExplodeInputState → Except Fault (Except Error Nat × ExplodeInputState)
  | .Available v => .ok (.ok v, .Taken)
  | .Taken => .ok (.error .IncompleteInput, .Waiting)
  | .Waiting => .error .doubleTake

/-- `ExplodeInput` from src/explode.rs: the input slot plus the `u32` bit
buffer (`bitbuf`) and its bit count. -/
structure ExplodeInput where
  next : ExplodeInputState
  bitbuf : Nat
  bitcount : Nat
deriving DecidableEq

/-- The `while self.bitcount < n` filling loop of `ExplodeInput::bits`,
with an explicit iteration budget (structural recursion, so that the
kernel can evaluate it).  Each round takes a byte from the slot and ors it
into `bitbuf` (a `u32`) at offset `bitcount`.  On an error the mutations
made so far persist, as they do through `&mut self` in Rust.  A round that
takes successfully leaves the slot `Taken`, and taking from a `Taken` slot
exits the loop with `IncompleteInput`, so the loop body can recurse at
most once: a budget of 2 is the exact loop (`fillGo_stable` below). -/
def fillGo : Nat → Nat → ExplodeInput → Except Fault (Except Error Unit × ExplodeInput)
  | 0, _, inp => .ok (.ok (), inp)
  | gas + 1, n, inp =>
    if inp.bitcount < n then
      match inp.next.take with
      | .error f => .error f
      | .ok (.error e, nx) => .ok (.error e, { inp with next := nx })
      | .ok (.ok v, nx) =>
          fillGo gas n
            { next := nx,
              bitbuf := (inp.bitbuf ||| (v <<< inp.bitcount)) % 4294967296,
              bitcount := inp.bitcount + 8 }
    else .ok (.ok (), inp)

/-- The `while self.bitcount < n` loop of `ExplodeInput::bits`. -/
def ExplodeInput.fill (n : Nat) (inp : ExplodeInput) :
    Except Fault (Except Error Unit × ExplodeInput) :=
  fillGo 2 n inp

/-- `ExplodeInput::bits` from src/explode.rs: read `n` bits, LSB-first. -/
def ExplodeInput.bits (inp : ExplodeInput) (n : Nat) :
    Except Fault (Except Error Nat × ExplodeInput) :=
  match ExplodeInput.fill n inp with
  | .error f => .error f
  | .ok (.error e, inp') => .ok (.error e, inp')
  | .ok (.ok _, inp') =>
    .ok (.ok (inp'.bitbuf &&& ((1 <<< n) - 1)),
         { inp' with bitbuf := inp'.bitbuf >>> n, bitcount := inp'.bitcount - n })

/-- Bits obtainable from an input state without new input: the buffered
bits plus a pending available byte.  (Proof device for the termination of
the decode loop; not part of the Rust source.) -/
def ExplodeInput.avail (inp : ExplodeInput) : Nat :=
  inp.bitcount + (match inp.next with | .Available _ => 8 | _ => 0)

/-- The `loop` of `ExplodeInput::decode` from src/explode.rs with an
explicit iteration budget (structural recursion, so that the kernel can
evaluate it): feed inverted stream bits (`bit = (raw != 1)`) into a
Huffman cursor until it yields a symbol.  A `DecodeResult::Invalid`
outcome is the `"Codebooks are under-subscribed but should not be!"`
panic, modelled as the `Fault.invalidSymbol` abort.  Every round consumes
one bit, and a round with no bit available exits with `IncompleteInput`,
so a budget above `inp.avail` never runs out (`decodeSymGo_stable`); the
budget-0 value is arbitrary and unreachable from `decodeSym`. -/
def decodeSymGo (t : CanonicalHuffman) :
    Nat → HuffDecoder → ExplodeInput →
      Except Fault (Except Error Nat × ExplodeInput × HuffDecoder)
  | 0, d, inp => .ok (.error .IncompleteInput, inp, d)
  | gas + 1, d, inp =>
    match inp.bits 1 with
    | .error f => .error f
    | .ok (.error e, inp') => .ok (.error e, inp', d)
    | .ok (.ok v, inp') =>
      -- codes in this format are inverted from canonical
      let bit := v != 1
      match HuffDecoder.feed t d bit with
      | none => .error .indexOutOfBounds
      | some (.Incomplete, d') => decodeSymGo t gas d' inp'
      | some (.Invalid, _) => .error .invalidSymbol
      | some (.Ok s, d') => .ok (.ok s, inp', d')

/-- `ExplodeInput::decode` from src/explode.rs. -/
def ExplodeInput.decodeSym (t : CanonicalHuffman) (d : HuffDecoder) (inp : ExplodeInput) :
    Except Fault (Except Error Nat × ExplodeInput × HuffDecoder) :=
  decodeSymGo t (inp.avail + 1) d inp

/-- `ExplodeState` from src/explode.rs.  In the Rust enum the
`Length`/`Distance`/`LiteralCoded` arms store a decoder borrowing one of
the three static tables; since each arm is always constructed with its
fixed table (`LENGTH`, `DISTANCE`, `LITERAL` respectively) only the cursor
is stored here and the table is supplied at the decode site. -/
inductive ExplodeState where
  | Start
  | Length (decoder : HuffDecoder)
  | LengthExtra (symbol : Nat)
  | Distance (len : Nat) (decoder : HuffDecoder)
  | DistanceExtra (len : Nat) (symbol : Nat)
  | Copy (idx : Nat) (len : Nat)
  | Literal
  | LiteralCoded (decoder : HuffDecoder)
  | End
deriving DecidableEq

/-- `Explode` from src/explode.rs: machine state, cached header fields,
input management, and the 4096-byte sliding window. -/
structure Explode where
  state : ExplodeState
  lit : Option Nat
  dict : Option Nat
  input : ExplodeInput
  window : List Nat
deriving DecidableEq

/-- `Explode::new`. -/
def Explode.new : Explode :=
  ⟨.Start, none, none, ⟨.Waiting, 0, 0⟩, []⟩

/-- `ArrayDeque<[u8; 4096], Wrapping>::push_back`: append, evicting the
oldest byte when the window already holds 4096. -/
def windowPush (w : List Nat) (value : Nat) : List Nat :=
  if 4096 ≤ w.length then w.drop 1 ++ [value] else w ++ [value]

/-- The output buffer bound to the engine: `out` is the filled prefix
`buf[..pos]` (so `pos = out.length`), `cap` is `buf.len()`.  The backing
bytes past `pos` are never read by the source, so they are not modelled.
`cap = none` is a proof-side instance whose room check never fires; the
entry points below always use `cap = some c`. -/
structure Buf where
  cap : Option Nat
  out : List Nat
deriving DecidableEq

/-- The room check `self.pos >= self.buf.len()`. -/
def Buf.isFull (b : Buf) : Bool :=
  match b.cap with
  | some c => c ≤ b.out.length
  | none => false

/-- `LEN_BASE` from `ExplodeBuffer::feed`. -/
def LEN_BASE : List Nat := [3, 2, 4, 5, 6, 7, 8, 9, 10, 12, 16, 24, 40, 72, 136, 264]

/-- `LEN_EXTRA` from `ExplodeBuffer::feed`. -/
def LEN_EXTRA : List Nat := [0, 0, 0, 0, 0, 0, 0, 0, 1, 2, 3, 4, 5, 6, 7, 8]

/-- The index advance after each copied byte in the `Copy` arm of
`ExplodeBuffer::feed` (src/explode.rs):
`*idx += 1; if *idx >= self.parent.window.len() { *idx -= self.parent.window.len() }`
— the `>=` comparison form, applied to the post-push window length. -/
def explodeCopyAdvance (idx wlen : Nat) : Nat :=
  let idx := idx + 1
  if wlen ≤ idx then idx - wlen else idx

/-- The index advance after each copied byte in the `Copy` arm of
`DecoderBuffer::feed` (src/decoder.rs, the older engine revision):
`*idx += 1; if *idx > self.parent.window.len() { *idx -= self.parent.window.len() }`
— the strict `>` comparison form. -/
def decoderCopyAdvance (idx wlen : Nat) : Nat :=
  let idx := idx + 1
  if wlen < idx then idx - wlen else idx

/-- Outcome of one pass through the `loop { match self.parent.state }`
body of `ExplodeBuffer::feed`: loop again, `return Ok(())`, `return
Err(e)`, or panic. -/
inductive StepOut where
  | next (ex : Explode) (buf : Buf)
  | full (ex : Explode) (buf : Buf)
  | fail (e : Error) (ex : Explode) (buf : Buf)
  | crash (f : Fault)
deriving DecidableEq

/-- The `while *len > 0` loop of the `Copy` arm: check room, read
`window[idx]`, push it to the window and the output, advance and wrap the
index against the post-push window length; on exhaustion go to `Start`. -/
def copyLoop (ex : Explode) (buf : Buf) (idx : Nat) : Nat → StepOut
  | 0 => .next { ex with state := .Start } buf
  | len + 1 =>
    if buf.isFull then
      -- not enough room
      .full { ex with state := .Copy idx (len + 1) } buf
    else
      match ex.window.get? idx with
      | none => .crash .indexOutOfBounds
      | some value =>
        let w := windowPush ex.window value
        copyLoop { ex with window := w } { buf with out := buf.out ++ [value] }
          (explodeCopyAdvance idx w.length) len

/-- One iteration of the state-machine loop of `ExplodeBuffer::feed`
(src/explode.rs lines 241-359), after the two header bytes have been
cached as `lit` and `dict`. -/
def feedStep (lit dict : Nat) (ex : Explode) (buf : Buf) : StepOut :=
  match ex.state with
  | .Start =>
    match ex.input.bits 1 with
    | .error f => .crash f
    | .ok (.error e, inp') => .fail e { ex with input := inp' } buf
    | .ok (.ok v, inp') =>
      if 0 < v then
        -- this is a length/distance pair. length first.
        .next { ex with input := inp', state := .Length HuffDecoder.fresh } buf
      else if 0 < lit then
        .next { ex with input := inp', state := .LiteralCoded HuffDecoder.fresh } buf
      else
        .next { ex with input := inp', state := .Literal } buf
  | .Length d =>
    match ExplodeInput.decodeSym LENGTH d ex.input with
    | .error f => .crash f
    | .ok (.error e, inp', d') => .fail e { ex with input := inp', state := .Length d' } buf
    | .ok (.ok symbol, inp', _) =>
      .next { ex with input := inp', state := .LengthExtra symbol } buf
  | .LengthExtra symbol =>
    match LEN_BASE.get? symbol with
    | none => .crash .indexOutOfBounds
    | some base =>
      match LEN_EXTRA.get? symbol with
      | none => .crash .indexOutOfBounds
      | some nbits =>
        match ex.input.bits nbits with
        | .error f => .crash f
        | .ok (.error e, inp') => .fail e { ex with input := inp' } buf
        | .ok (.ok extra, inp') =>
          let len := base + extra
          if len = 519 then
            -- end code
            .next { ex with input := inp', state := .End } buf
          else
            .next { ex with input := inp', state := .Distance len HuffDecoder.fresh } buf
  | .Distance len d =>
    match ExplodeInput.decodeSym DISTANCE d ex.input with
    | .error f => .crash f
    | .ok (.error e, inp', d') =>
      .fail e { ex with input := inp', state := .Distance len d' } buf
    | .ok (.ok symbol, inp', _) =>
      .next { ex with input := inp', state := .DistanceExtra len symbol } buf
  | .DistanceExtra len symbol =>
    let extra_bits := if len = 2 then 2 else dict
    match ex.input.bits extra_bits with
    | .error f => .crash f
    | .ok (.error e, inp') => .fail e { ex with input := inp' } buf
    | .ok (.ok extra, inp') =>
      let dist := extra + 1 + (symbol <<< extra_bits)
      if ex.window.length < dist then
        -- too far back
        .fail .BadDistance { ex with input := inp' } buf
      else
        .next { ex with input := inp', state := .Copy (ex.window.length - dist) len } buf
  | .Copy idx len => copyLoop ex buf idx len
  | .Literal =>
    if buf.isFull then
      -- not enough room
      .full ex buf
    else
      match ex.input.bits 8 with
      | .error f => .crash f
      | .ok (.error e, inp') => .fail e { ex with input := inp' } buf
      | .ok (.ok value, inp') =>
        .next { ex with input := inp', state := .Start, window := windowPush ex.window value }
          { buf with out := buf.out ++ [value] }
  | .LiteralCoded d =>
    if buf.isFull then
      -- not enough room
      .full ex buf
    else
      match ExplodeInput.decodeSym LITERAL d ex.input with
      | .error f => .crash f
      | .ok (.error e, inp', d') =>
        .fail e { ex with input := inp', state := .LiteralCoded d' } buf
      | .ok (.ok value, inp', _) =>
        .next { ex with input := inp', state := .Start, window := windowPush ex.window value }
          { buf with out := buf.out ++ [value] }
  | .End => .full ex buf

/-- Result of a whole `ExplodeBuffer::feed` call.  `outOfFuel` marks an
exhausted iteration budget of the embedding (the Rust loop has no such
exit; all theorems below are conditioned on the budget not running out). -/
inductive FeedOut where
  | ok (ex : Explode) (buf : Buf)
  | err (e : Error) (ex : Explode) (buf : Buf)
  | crash (f : Fault)
  | outOfFuel
deriving DecidableEq

/-- The `loop` of `ExplodeBuffer::feed`, as iteration of `feedStep`. -/
def feedLoop : Nat → Nat → Nat → Explode → Buf → FeedOut
  | 0, _, _, _, _ => .outOfFuel
  | fuel + 1, lit, dict, ex, buf =>
    match feedStep lit dict ex buf with
    | .next ex' buf' => feedLoop fuel lit dict ex' buf'
    | .full ex' buf' => .ok ex' buf'
    | .fail e ex' buf' => .err e ex' buf'
    | .crash f => .crash f

/-- The dictionary-byte header phase of `ExplodeBuffer::feed`: read and
validate the second header byte if not yet cached, then enter the state
machine loop. -/
def feedDict (fuel lit : Nat) (ex : Explode) (buf : Buf) : FeedOut :=
  match ex.dict with
  | some dict => feedLoop fuel lit dict ex buf
  | none =>
    match ex.input.bits 8 with
    | .error f => .crash f
    | .ok (.error e, inp') => .err e { ex with input := inp' } buf
    | .ok (.ok dict, inp') =>
      if dict < 4 || 6 < dict then .err .BadDictionary { ex with input := inp' } buf
      else feedLoop fuel lit dict { ex with input := inp', dict := some dict } buf

/-- `ExplodeBuffer::feed` from src/explode.rs: offer the byte to the input
slot, read the two header bytes if not yet cached (first the literal flag,
then the dictionary parameter), then run the state machine. -/
def Explode.feed (fuel : Nat) (ex0 : Explode) (buf : Buf) (input : Nat) : FeedOut :=
  let ex := { ex0 with input := { ex0.input with next := ex0.input.next.feed input } }
  match ex.lit with
  | some lit => feedDict fuel lit ex buf
  | none =>
    match ex.input.bits 8 with
    | .error f => .crash f
    | .ok (.error e, inp') => .err e { ex with input := inp' } buf
    | .ok (.ok lit, inp') =>
      if 1 < lit then .err .BadLiteralFlag { ex with input := inp' } buf
      else feedDict fuel lit { ex with input := inp', lit := some lit } buf

/-- Result of `explode_with_buffer` / `explode`. -/
inductive ExResult where
  | ok (out : List Nat)
  | fail (e : Error)
  | crash (f : Fault)
  | outOfFuel
deriving DecidableEq

/-- The driver loop of `explode_with_buffer` (src/explode.rs lines
454-484): feed the current byte; on `Ok(())` drain the buffer into `out`,
return it if the engine is done, else reset the buffer and feed the same
byte again; on `IncompleteInput` advance to the next byte; any other error
is fatal; running out of input yields `IncompleteInput`. -/
def ewbLoop : Nat → Nat → Explode → Buf → List Nat → List Nat → ExResult
  | 0, _, _, _, _, _ => .outOfFuel
  | _ + 1, _, _, _, _, [] => .fail .IncompleteInput
  | dfuel + 1, ifuel, ex, buf, out, b :: rest =>
    match Explode.feed ifuel ex buf b with
    | .outOfFuel => .outOfFuel
    | .crash f => .crash f
    | .err .IncompleteInput ex' buf' => ewbLoop dfuel ifuel ex' buf' out rest
    | .err e _ _ => .fail e
    | .ok ex' buf' =>
      let out' := out ++ buf'.out
      if ex'.state = .End then .ok out'
      else ewbLoop dfuel ifuel ex' { buf' with out := [] } out' (b :: rest)

/-- `explode_with_buffer` from src/explode.rs, with an auxiliary buffer of
capacity `cap`. -/
def explode_with_buffer (dfuel ifuel : Nat) (data : List Nat) (cap : Nat) : ExResult :=
  ewbLoop dfuel ifuel Explode.new ⟨some cap, []⟩ [] data

/-- `explode` from src/explode.rs: `explode_with_buffer` with the default
4096-byte buffer. -/
def explode (dfuel ifuel : Nat) (data : List Nat) : ExResult :=
  explode_with_buffer dfuel ifuel data 4096

/-! ## Proof-side notions for the window invariant (claim C9) -/

/-- The most recent at-most-4096 entries of a byte list (what the
4096-capacity wrapping window should hold after producing that list). -/
def lastWindow (l : List Nat) : List Nat := l.drop (l.length - 4096)

/-- The window invariant, read off a `feedStep` outcome: whatever state
the step left behind, its window is the most recent at-most-4096 bytes of
`total` output (`total` counts drained output plus the bound buffer's
current contents). -/
def windowInv (total : List Nat) : StepOut → Prop
  | .next ex' buf' => ex'.window = lastWindow (total ++ buf'.out)
  | .full ex' buf' => ex'.window = lastWindow (total ++ buf'.out)
  | .fail _ ex' buf' => ex'.window = lastWindow (total ++ buf'.out)
  | .crash _ => True

/-- The window invariant, read off a whole `feed` outcome. -/
def windowInvF (total : List Nat) : FeedOut → Prop
  | .ok ex' buf' => ex'.window = lastWindow (total ++ buf'.out)
  | .err _ ex' buf' => ex'.window = lastWindow (total ++ buf'.out)
  | .crash _ => True
  | .outOfFuel => True

/-- The engine states reachable through the public protocol:
`Explode::new`, then any sequence of `ExplodeBuffer::feed` calls with
arbitrary bytes, output buffers of arbitrary capacity, and arbitrary
drain/`reset` points.  `Reaches ex t s` reads: engine state `ex` with
`t ++ s` the total output produced so far, of which `s` still sits in the
current output buffer. -/
inductive Reaches : Explode → List Nat → List Nat → Prop
  | init : Reaches Explode.new [] []
  | stepOk (ex : Explode) (t s : List Nat) (fuel : Nat) (cap : Option Nat) (b : Nat)
      (ex' : Explode) (buf' : Buf) :
      Reaches ex t s → Explode.feed fuel ex ⟨cap, s⟩ b = .ok ex' buf' →
      Reaches ex' t buf'.out
  | stepErr (ex : Explode) (t s : List Nat) (fuel : Nat) (cap : Option Nat) (b : Nat)
      (e : Error) (ex' : Explode) (buf' : Buf) :
      Reaches ex t s → Explode.feed fuel ex ⟨cap, s⟩ b = .err e ex' buf' →
      Reaches ex' t buf'.out
  | drain (ex : Explode) (t s : List Nat) :
      Reaches ex t s → Reaches ex (t ++ s) []

/-! ## Proof-side notions for the buffer-size independence claim (C6) -/

/-- Outcome of the header phase of `ExplodeBuffer::feed` (the byte offer
plus the two cached header reads), factored out of `Explode.feed` for the
equivalence proofs; `feed_eq_headerRun` shows `Explode.feed` is this phase
followed by the state-machine loop.  The phase never touches the output
buffer. -/
inductive HeaderOut where
  | ok (lit dict : Nat) (ex : Explode)
  | err (e : Error) (ex : Explode)
  | crash (f : Fault)
deriving DecidableEq

/-- The dictionary-byte part of the header phase (mirrors `feedDict`). -/
def headerDict (lit : Nat) (ex : Explode) : HeaderOut :=
  match ex.dict with
  | some dict => .ok lit dict ex
  | none =>
    match ex.input.bits 8 with
    | .error f => .crash f
    | .ok (.error e, inp') => .err e { ex with input := inp' }
    | .ok (.ok dict, inp') =>
      if dict < 4 || 6 < dict then .err .BadDictionary { ex with input := inp' }
      else .ok lit dict { ex with input := inp', dict := some dict }

/-- The whole header phase of `ExplodeBuffer::feed` (mirrors
`Explode.feed` up to the state-machine loop). -/
def headerRun (ex0 : Explode) (input : Nat) : HeaderOut :=
  let ex := { ex0 with input := { ex0.input with next := ex0.input.next.feed input } }
  match ex.lit with
  | some lit => headerDict lit ex
  | none =>
    match ex.input.bits 8 with
    | .error f => .crash f
    | .ok (.error e, inp') => .err e { ex with input := inp' }
    | .ok (.ok lit, inp') =>
      if 1 < lit then .err .BadLiteralFlag { ex with input := inp' }
      else headerDict lit { ex with input := inp', lit := some lit }

/-! ## Helper lemmas -/

/-- Any budget of at least 2 computes the same fill as budget 2: after one
successful take the slot is `Taken`, so the next round cannot recurse.
Hence `ExplodeInput.fill` is the exact `while` loop of the source. -/
theorem fillGo_stable (gas n : Nat) (inp : ExplodeInput) :
    fillGo (gas + 2) n inp = fillGo 2 n inp := by
  rw [fillGo, fillGo]
  rcases inp with ⟨next, bitbuf, bitcount⟩
  by_cases h : bitcount < n
  · simp only [if_pos h]
    cases next <;> simp [ExplodeInputState.take]
    by_cases h2 : bitcount + 8 < n
    · rw [fillGo, fillGo] ; simp [h2, ExplodeInputState.take]
    · rw [fillGo, fillGo] ; simp [h2]
  · simp [h]

theorem bits_one_avail (inp : ExplodeInput) (v : Nat) (inp' : ExplodeInput)
    (h : inp.bits 1 = .ok (.ok v, inp')) : inp'.avail < inp.avail := by
  rcases inp with ⟨next, bitbuf, bitcount⟩
  cases bitcount with
  | zero =>
    cases next with
    | Available a =>
      simp [ExplodeInput.bits, ExplodeInput.fill, fillGo, ExplodeInputState.take] at h
      first
      | (rcases h with ⟨-, rfl⟩; simp only [ExplodeInput.avail]; omega)
      | (simp only [ExplodeInput.avail]; omega)
    | Taken =>
      simp [ExplodeInput.bits, ExplodeInput.fill, fillGo, ExplodeInputState.take] at h
    | Waiting =>
      simp [ExplodeInput.bits, ExplodeInput.fill, fillGo, ExplodeInputState.take] at h
  | succ k =>
    simp [ExplodeInput.bits, ExplodeInput.fill, fillGo, Nat.succ_lt_succ_iff] at h
    first
    | (rcases h with ⟨-, rfl⟩; cases next <;> (simp only [ExplodeInput.avail]; omega))
    | (cases next <;> (simp only [ExplodeInput.avail]; omega))

/-- Any budget above the available bit count computes the same decode, so
`ExplodeInput.decodeSym` is the exact (unbounded) `loop` of the source. -/
theorem decodeSymGo_stable (t : CanonicalHuffman) :
    ∀ gas (d : HuffDecoder) (inp : ExplodeInput), inp.avail < gas →
      decodeSymGo t gas d inp = decodeSymGo t (inp.avail + 1) d inp := by
  intro gas
  induction gas using Nat.strong_induction_on with
  | _ gas ih =>
    intro d inp h
    match gas, h with
    | g + 1, h =>
      simp only [decodeSymGo]
      cases hb : inp.bits 1 with
      | error f => rfl
      | ok p =>
        rcases p with ⟨v | v, inp'⟩
        · rfl
        · simp only []
          cases HuffDecoder.feed t d (v != 1) with
          | none => rfl
          | some r =>
            rcases r with ⟨res, d'⟩
            cases res with
            | Incomplete =>
              have hlt := bits_one_avail inp v inp' hb
              simp only [ih g (by omega) d' inp' (by omega),
                ih inp.avail (by omega) d' inp' (by omega)]
            | Invalid => rfl
            | Ok s => rfl

theorem foldr_max_zero (lengths : List Nat) (h : ∀ l ∈ lengths, l = 0) :
    lengths.foldr Nat.max 0 = 0 := by
  induction lengths with
  | nil => rfl
  | cons a rest ih =>
    have ha : a = 0 := h a (by simp)
    have := ih (fun l hl => h l (by simp [hl]))
    simp [ha, this]

/-- Every table `new_from_lengths` builds from an all-zero (or empty)
length list has `max_len = 1`, and construction always succeeds on such a
list. -/
theorem new_from_lengths_all_zero (lengths : List Nat) (h : ∀ l ∈ lengths, l = 0) :
    ∃ t, CanonicalHuffman.new_from_lengths lengths = some t ∧ t.max_len = 1 := by
  unfold CanonicalHuffman.new_from_lengths
  rw [foldr_max_zero lengths h]
  by_cases hc : (tallyLengths ((0 + 1) % 256) lengths).getD 0 0 = lengths.length
  · exact ⟨_, by rw [if_pos hc], rfl⟩
  · rw [if_neg hc]
    simp only [List.range', List.foldlM]
    exact ⟨_, rfl, rfl⟩

/-! ## The claims -/

/-- Claim C1 (code bug): the claim states that `explode` on the 8-byte
input `[0x00, 0x04, 0x82, 0x24, 0x25, 0x8f, 0x80, 0x7f]` returns `Ok`
with the 13 ASCII bytes of `"AIAIAIAIAIAIA"`, as the crate's own doctests
assert.  On this source, the run instead aborts with the
`"Codebooks are under-subscribed but should not be!"` panic: after the
raw literals `A` and `I`, the first length-symbol decode feeds logical
bit 1 into a fresh `LENGTH` cursor, and `Decoder::feed` (src/codes.rs)
answers `Invalid` because its `code > first + count` branch rejects every
code value above the single boundary continuation, even though the
`LENGTH` table is a complete code under which blast.c-style decoding
would succeed. -/
theorem c1_explode_example_aborts :
    explode 100 200 [0x00, 0x04, 0x82, 0x24, 0x25, 0x8f, 0x80, 0x7f] =
      .crash .invalidSymbol := by decide

/-- Claim C2, counterexample: the claim states that every engine revision
in the source wraps the `Copy` source index with the `>=` comparison, so
that an index equal to the window length wraps to 0.  In the decoder.rs
revision the comparison is the strict `>`: with window length 1, an index
that advances to 1 is left at 1 (out of bounds) instead of wrapping to 0
as the explode.rs form does. -/
theorem c2_decoder_rs_uses_strict_gt :
    decoderCopyAdvance 0 1 = 1 ∧ explodeCopyAdvance 0 1 = 0 := by decide

/-- Claim C2, amended: in explode.rs's `Copy` arm the advanced index wraps
exactly when it reaches the window length (`>=` form), keeping it in
bounds; the older decoder.rs revision wraps only when strictly greater, so
an advanced index equal to the window length is left there, out of
bounds. -/
theorem c2_copy_advance_forms (idx wlen : Nat) :
    (idx < wlen → explodeCopyAdvance idx wlen < wlen) ∧
    (idx + 1 = wlen → explodeCopyAdvance idx wlen = 0 ∧ decoderCopyAdvance idx wlen = wlen) := by
  constructor
  · intro h
    unfold explodeCopyAdvance
    by_cases h2 : wlen ≤ idx + 1
    · simp only [h2, if_pos]; omega
    · simp only [if_neg h2]; omega
  · intro h
    unfold explodeCopyAdvance decoderCopyAdvance
    subst h
    simp

theorem c2_copy_advance_forms_witness :
    explodeCopyAdvance 3 4 = 0 ∧ decoderCopyAdvance 3 4 = 4 :=
  (c2_copy_advance_forms 3 4).2 rfl

/-- Claim C3 (code bug): the claim states that whenever the bit-at-a-time
decoder reports `Invalid` during an engine symbol decode, the feed call
surfaces a fatal decode error as its return value and never aborts the
process.  In the source, `ExplodeInput::decode` (src/explode.rs lines
174-187) handles `Invalid` with `panic!`, i.e. a process abort, not an
error return — and the situation is reachable: the input state below
(slot `Taken`, 5 buffered bits `0b00100`) is exactly the engine's input
state during the first length decode of the crate's own doctest bytes
`[0x00, 0x04, 0x82, 0x24, 0x25, 0x8f, 0x80, 0x7f]` (see
`c1_explode_example_aborts`).  The decoder reports `Invalid` on the very
first fed bit, and the decode call aborts (`Fault.invalidSymbol`) instead
of returning an `Error`. -/
theorem c3_invalid_aborts_instead_of_error :
    (HuffDecoder.feed LENGTH HuffDecoder.fresh true).map Prod.fst = some DecodeResult.Invalid ∧
    ExplodeInput.decodeSym LENGTH HuffDecoder.fresh ⟨.Taken, 4, 5⟩ = .error .invalidSymbol := by
  exact ⟨by decide, rfl⟩

/-- Claim C4 (code bug): the claim states that for every non-oversubscribed
length list with at least one nonzero length, construction succeeds and
decoding each symbol's canonical code returns that symbol.  Both halves
fail on this source.  Construction: `[8]` (one symbol of code length 8,
not oversubscribed) yields `None`, because the `u8` `symbols_left` walk
wraps `128 << 1` to 0 at length 8 and reports oversubscription.  Decode:
the complete table of `[2, 2, 2, 2]` (canonical codes 00, 01, 10, 11 for
symbols 0-3) is built, but decoding symbol 2's canonical code `10`
(logical bits `[true, false]`) answers `Invalid` (`some none`), because
`Decoder::feed`'s `code > first + count` branch rejects every prefix above
the single boundary continuation. -/
theorem c4_construction_and_decode_fail :
    CanonicalHuffman.new_from_lengths [8] = none ∧
    specOversubscribed [8] = false ∧
    CanonicalHuffman.new_from_lengths [2, 2, 2, 2] = some ⟨3, [0, 0, 4], [0, 1, 2, 3]⟩ ∧
    CanonicalHuffman.decode ⟨3, [0, 0, 4], [0, 1, 2, 3]⟩ [true, false] = some none := by
  decide

set_option maxRecDepth 10000 in
/-- Claim C5 (code bug): the claim states that every oversubscribed
length list makes `new_from_lengths` return `None`.  The list of 256
symbols all of code length 1 is oversubscribed (available codes
2 - 256 < 0 at length 1), yet construction succeeds: the `u8` tally
`counts[1] += 1` wraps to 0 at the 256th symbol (release semantics; a
debug build panics at that increment instead — neither behavior returns
`None`), so the oversubscription walk sees a zero count and passes. -/
theorem c5_oversubscribed_accepted :
    specOversubscribed (List.replicate 256 1) = true ∧
    (CanonicalHuffman.new_from_lengths (List.replicate 256 1)).isSome = true := by
  decide

/-- Claim C8 (confirmed): a table built from an empty symbol set (an empty
length list, or one whose every length is 0) is successfully constructed
with `max_len = 1`, and the very first fed bit — whatever its value —
makes `Decoder::feed` return `Invalid`: never `Ok`, and never an
out-of-bounds access (the `bits >= max_len` test fires before any table
indexing). -/
theorem c8_empty_table_first_bit_invalid (lengths : List Nat)
    (h : ∀ l ∈ lengths, l = 0) (b : Bool) :
    ∃ t, CanonicalHuffman.new_from_lengths lengths = some t ∧
      (HuffDecoder.feed t HuffDecoder.fresh b).map Prod.fst = some DecodeResult.Invalid := by
  obtain ⟨t, ht, hm⟩ := new_from_lengths_all_zero lengths h
  refine ⟨t, ht, ?_⟩
  unfold HuffDecoder.feed
  simp [HuffDecoder.fresh, hm]

theorem c8_empty_table_first_bit_invalid_witness :
    ∃ t, CanonicalHuffman.new_from_lengths [0, 0] = some t ∧
      (HuffDecoder.feed t HuffDecoder.fresh true).map Prod.fst = some DecodeResult.Invalid :=
  c8_empty_table_first_bit_invalid [0, 0] (by simp) true

/-- Claim C10 (code bug): the claim states that `ExplodeBuffer::feed`
never panics, in particular that the three static tables are complete
codes "under which `Decoder::feed` never returns Invalid".  The tables
are complete, but this `Decoder::feed` still returns `Invalid` on
reachable cursor states (its `code > first + count` branch), so the
`panic!` in `ExplodeInput::decode` is reachable: the engine state below
is the one reached by the crate's own doctest bytes
`[0x00, 0x04, 0x82, 0x24, 0x25, 0x8f, 0x80, 0x7f]` just before the
fifth feed call (state `Literal`, headers `lit = 0`, `dict = 4`, six
buffered bits `0b001001`, window `[0x41]`, one output byte so far), and
feeding the next input byte `0x25` to it panics. -/
theorem c10_feed_panics_on_reachable_state :
    Explode.feed 200 ⟨.Literal, some 0, some 4, ⟨.Waiting, 9, 6⟩, [65]⟩
      ⟨some 4096, [65]⟩ 0x25 = .crash .invalidSymbol := by decide

/-- Claim C7 (confirmed): in the `DistanceExtra` state, with
`extra_bits = 2` when `len == 2` and the header's `dict` value otherwise,
and the `extra_bits`-bit read succeeding with value `extra`, the engine
computes `distance = extra + 1 + (symbol << extra_bits)` and fails with
`BadDistance` exactly when that distance exceeds the number of bytes
currently held in the sliding window; otherwise it proceeds to the `Copy`
state with source index `window.len() - distance`. -/
theorem c7_distance_extra_step (lit dict len symbol extra : Nat) (ex : Explode)
    (buf : Buf) (inp' : ExplodeInput)
    (hstate : ex.state = .DistanceExtra len symbol)
    (hbits : ex.input.bits (if len = 2 then 2 else dict) = .ok (.ok extra, inp')) :
    feedStep lit dict ex buf =
      if ex.window.length < extra + 1 + (symbol <<< (if len = 2 then 2 else dict)) then
        .fail .BadDistance { ex with input := inp' } buf
      else
        .next { ex with input := inp', state := .Copy (ex.window.length - (extra + 1 + (symbol <<< (if len = 2 then 2 else dict)))) len } buf := by
  unfold feedStep
  rw [hstate]
  simp only [hbits]

theorem c7_distance_extra_step_witness :
    feedStep 0 4 ⟨.DistanceExtra 3 0, some 0, some 4, ⟨.Taken, 0, 4⟩, []⟩ ⟨some 10, []⟩ =
      .fail .BadDistance ⟨.DistanceExtra 3 0, some 0, some 4, ⟨.Taken, 0, 0⟩, []⟩ ⟨some 10, []⟩ := by
  have h := c7_distance_extra_step 0 4 3 0 0
    ⟨.DistanceExtra 3 0, some 0, some 4, ⟨.Taken, 0, 4⟩, []⟩ ⟨some 10, []⟩
    ⟨.Taken, 0, 0⟩ rfl rfl
  rw [h]
  rfl

/-! ## Claim C9: the window invariant -/

theorem lastWindow_length (l : List Nat) :
    (lastWindow l).length = min l.length 4096 := by
  simp [lastWindow]
  omega

theorem push_lastWindow (total : List Nat) (v : Nat) :
    windowPush (lastWindow total) v = lastWindow (total ++ [v]) := by
  unfold windowPush lastWindow
  by_cases h : 4096 ≤ total.length
  · have hlen : (total.drop (total.length - 4096)).length = 4096 := by
      rw [List.length_drop]; omega
    rw [if_pos (le_of_eq hlen.symm)]
    rw [List.drop_drop]
    have h1 : (total ++ [v]).length - 4096 = (total.length - 4096) + 1 := by
      simp; omega
    rw [h1, List.drop_append_of_le_length (by omega)]
  · have h0 : total.length - 4096 = 0 := by omega
    have h1 : (total ++ [v]).length - 4096 = 0 := by simp; omega
    rw [h0, h1]
    simp only [List.drop_zero]
    rw [if_neg h]

theorem copyLoop_window (total : List Nat) :
    ∀ (len idx : Nat) (ex : Explode) (buf : Buf),
      ex.window = lastWindow (total ++ buf.out) →
      windowInv total (copyLoop ex buf idx len) := by
  intro len
  induction len with
  | zero =>
    intro idx ex buf hw
    simpa [copyLoop, windowInv] using hw
  | succ n ih =>
    intro idx ex buf hw
    rw [copyLoop]
    by_cases hf : buf.isFull
    · simpa [hf, windowInv] using hw
    · simp only [hf, Bool.false_eq_true, if_false]
      cases hg : ex.window.get? idx with
      | none => simp [windowInv]
      | some value =>
        simp only []
        apply ih
        simp only []
        rw [hw, push_lastWindow, List.append_assoc]

theorem feedStep_window (lit dict : Nat) (total : List Nat) (ex : Explode) (buf : Buf)
    (hw : ex.window = lastWindow (total ++ buf.out)) :
    windowInv total (feedStep lit dict ex buf) := by
  rcases ex with ⟨st, hl, hd, inp, w⟩
  simp only [] at hw
  cases st with
  | Copy idx len =>
    exact copyLoop_window total len idx ⟨.Copy idx len, hl, hd, inp, w⟩ buf hw
  | _ =>
    simp only [feedStep]
    repeat' split
    all_goals simp only [windowInv]
    all_goals first
    | exact True.intro
    | (rw [hw, push_lastWindow, List.append_assoc])
    | exact hw

theorem feedLoop_window (lit dict : Nat) (total : List Nat) :
    ∀ (fuel : Nat) (ex : Explode) (buf : Buf),
      ex.window = lastWindow (total ++ buf.out) →
      windowInvF total (feedLoop fuel lit dict ex buf) := by
  intro fuel
  induction fuel with
  | zero => intro ex buf hw; simp [feedLoop, windowInvF]
  | succ n ih =>
    intro ex buf hw
    have hs := feedStep_window lit dict total ex buf hw
    cases hstep : feedStep lit dict ex buf with
    | next ex' buf' =>
      rw [feedLoop, hstep]
      exact ih ex' buf' (by rw [hstep] at hs; exact hs)
    | full ex' buf' =>
      rw [feedLoop, hstep]
      rw [hstep] at hs
      simpa [windowInvF] using hs
    | fail e ex' buf' =>
      rw [feedLoop, hstep]
      rw [hstep] at hs
      simpa [windowInvF] using hs
    | crash f =>
      rw [feedLoop, hstep]
      simp [windowInvF]

theorem feed_window (total : List Nat) (fuel : Nat) (ex : Explode) (buf : Buf) (b : Nat)
    (hw : ex.window = lastWindow (total ++ buf.out)) :
    windowInvF total (Explode.feed fuel ex buf b) := by
  rcases ex with ⟨st, hl, hd, inp, w⟩
  simp only [] at hw
  unfold Explode.feed feedDict
  cases hl <;> cases hd <;> simp only []
  all_goals repeat' split
  all_goals simp only [windowInvF]
  all_goals first
  | exact True.intro
  | exact hw
  | (apply feedLoop_window <;> simpa using hw)

/-- Claim C9 (confirmed): after any sequence of `ExplodeBuffer::feed`
calls (any bytes, any buffer capacities, any drain points) that has
produced `t ++ s` output bytes in total, the engine's sliding window is
exactly the most recent `min (N, 4096)` of those bytes in order: every
byte written to the output buffer is pushed onto the window in the same
step and the window is mutated in no other way, which is what the
`lastWindow` equation says. -/
theorem c9_window_invariant (ex : Explode) (t s : List Nat) (h : Reaches ex t s) :
    ex.window = lastWindow (t ++ s) ∧ ex.window.length = min (t ++ s).length 4096 := by
  have main : ex.window = lastWindow (t ++ s) := by
    induction h with
    | init => rfl
    | stepOk ex t s fuel cap b ex' buf' hr hfeed ih =>
      have hf := feed_window t fuel ex ⟨cap, s⟩ b ih
      rw [hfeed] at hf
      simpa [windowInvF] using hf
    | stepErr ex t s fuel cap b e ex' buf' hr hfeed ih =>
      have hf := feed_window t fuel ex ⟨cap, s⟩ b ih
      rw [hfeed] at hf
      simpa [windowInvF] using hf
    | drain ex t s hr ih =>
      simpa using ih
  exact ⟨main, by rw [main, lastWindow_length]⟩

theorem c9_window_invariant_witness :
    (⟨.Start, some 0, none, ⟨.Waiting, 0, 0⟩, []⟩ : Explode).window = lastWindow ([] ++ []) ∧
    (⟨.Start, some 0, none, ⟨.Waiting, 0, 0⟩, []⟩ : Explode).window.length =
      min (([] ++ []) : List Nat).length 4096 :=
  c9_window_invariant _ [] []
    (Reaches.stepErr Explode.new [] [] 5 (some 4096) 0 .IncompleteInput
      ⟨.Start, some 0, none, ⟨.Waiting, 0, 0⟩, []⟩ ⟨some 4096, []⟩ Reaches.init rfl)

/-! ## Claim C6: buffer-size independence of explode_with_buffer -/

theorem feed_eq_headerRun (fuel : Nat) (ex : Explode) (buf : Buf) (b : Nat) :
    Explode.feed fuel ex buf b =
      match headerRun ex b with
      | .ok lit dict exH => feedLoop fuel lit dict exH buf
      | .err e exH => .err e exH buf
      | .crash f => .crash f := by
  rcases ex with ⟨st, hl, hd, inp, w⟩
  unfold Explode.feed feedDict headerRun headerDict
  cases hl with
  | some l =>
    cases hd with
    | some d => rfl
    | none =>
      simp only []
      cases hb : (⟨inp.next.feed b, inp.bitbuf, inp.bitcount⟩ : ExplodeInput).bits 8 with
      | error f => rfl
      | ok p =>
        rcases p with ⟨e | v, inp'⟩
        · rfl
        · simp only []
          by_cases hv : v < 4 || 6 < v <;> simp [hv]
  | none =>
    simp only []
    cases hb : (⟨inp.next.feed b, inp.bitbuf, inp.bitcount⟩ : ExplodeInput).bits 8 with
    | error f => rfl
    | ok p =>
      rcases p with ⟨e | v, inp'⟩
      · rfl
      · simp only []
        by_cases hv : 1 < v
        · simp [hv]
        · simp only [hv, if_false]
          cases hd with
          | some d => rfl
          | none =>
            cases hb2 : (⟨st, some v, none, inp', w⟩ : Explode).input.bits 8 with
            | error f => rfl
            | ok p2 =>
              rcases p2 with ⟨e2 | v2, inp2⟩
              · rfl
              · simp only []
                by_cases hv2 : v2 < 4 || 6 < v2 <;> simp [hv2]

theorem feedLoop_mono :
    ∀ (fuel lit dict : Nat) (ex : Explode) (buf : Buf) (r : FeedOut),
      feedLoop fuel lit dict ex buf = r → r ≠ .outOfFuel →
      feedLoop (fuel + 1) lit dict ex buf = r := by
  intro fuel
  induction fuel with
  | zero =>
    intro l d ex buf r h hne
    rw [feedLoop] at h
    exact absurd h.symm hne
  | succ n ih =>
    intro l d ex buf r h hne
    rw [feedLoop] at h ⊢
    cases hs : feedStep l d ex buf with
    | next ex' buf' =>
      rw [hs] at h
      exact ih l d ex' buf' r h hne
    | full ex' buf' => rw [hs] at h; exact h
    | fail e ex' buf' => rw [hs] at h; exact h
    | crash f => rw [hs] at h; exact h

theorem feedLoop_mono_le (fuel fuel' lit dict : Nat) (ex : Explode) (buf : Buf)
    (r : FeedOut) (h : feedLoop fuel lit dict ex buf = r) (hne : r ≠ .outOfFuel)
    (hle : fuel ≤ fuel') : feedLoop fuel' lit dict ex buf = r := by
  induction hle with
  | refl => exact h
  | step _ ih => exact feedLoop_mono _ lit dict ex buf r ih hne

theorem feed_mono (fuel fuel' : Nat) (ex : Explode) (buf : Buf) (b : Nat)
    (r : FeedOut) (h : Explode.feed fuel ex buf b = r) (hne : r ≠ .outOfFuel)
    (hle : fuel ≤ fuel') : Explode.feed fuel' ex buf b = r := by
  rw [feed_eq_headerRun] at h ⊢
  cases hh : headerRun ex b with
  | ok lit dict exH =>
    rw [hh] at h
    exact feedLoop_mono_le fuel fuel' lit dict exH buf r h hne hle
  | err e exH => rw [hh] at h; exact h
  | crash f => rw [hh] at h; exact h

theorem ewbLoop_mono :
    ∀ (dfuel dfuel' ifuel ifuel' : Nat) (ex : Explode) (buf : Buf)
      (out data : List Nat) (r : ExResult),
      ewbLoop dfuel ifuel ex buf out data = r → r ≠ .outOfFuel →
      dfuel ≤ dfuel' → ifuel ≤ ifuel' →
      ewbLoop dfuel' ifuel' ex buf out data = r := by
  intro dfuel
  induction dfuel with
  | zero =>
    intro dfuel' ifuel ifuel' ex buf out data r h hne _ _
    rw [ewbLoop] at h
    exact absurd h.symm hne
  | succ n ih =>
    intro dfuel' ifuel ifuel' ex buf out data r h hne hd hi
    match dfuel', hd with
    | n' + 1, hd =>
      cases data with
      | nil => rw [ewbLoop] at h ⊢; exact h
      | cons b rest =>
        rw [ewbLoop] at h ⊢
        cases hf : Explode.feed ifuel ex buf b with
        | outOfFuel =>
          rw [hf] at h
          simp only [] at h
          exact absurd h.symm hne
        | crash f =>
          rw [feed_mono ifuel ifuel' ex buf b _ hf (by simp) hi]
          rw [hf] at h; exact h
        | err e ex' buf' =>
          rw [feed_mono ifuel ifuel' ex buf b _ hf (by simp) hi]
          rw [hf] at h
          cases e with
          | IncompleteInput =>
            simp only [] at h ⊢
            exact ih n' ifuel ifuel' ex' buf' out rest r h hne (by omega) hi
          | BadLiteralFlag => exact h
          | BadDictionary => exact h
          | BadDistance => exact h
        | ok ex' buf' =>
          rw [feed_mono ifuel ifuel' ex buf b _ hf (by simp) hi]
          rw [hf] at h
          simp only [] at h ⊢
          by_cases hend : ex'.state = .End
          · simp only [hend, if_pos] at h ⊢
            simpa using h
          · rw [if_neg hend] at h ⊢
            exact ih n' ifuel ifuel' ex' { buf' with out := [] } (out ++ buf'.out) (b :: rest) r h hne (by omega) hi

theorem copyLoop_state_irrel (σ : ExplodeState) :
    ∀ (len idx : Nat) (ex : Explode) (buf : Buf),
      copyLoop { ex with state := σ } buf idx len = copyLoop ex buf idx len := by
  intro len
  induction len with
  | zero => intro idx ex buf; rfl
  | succ n ih =>
    intro idx ex buf
    rw [copyLoop, copyLoop]
    by_cases hf : buf.isFull
    · simp [hf]
    · simp only [hf, Bool.false_eq_true, if_false]
      cases hg : ex.window.get? idx with
      | none => rfl
      | some v =>
        simp only []
        exact ih (explodeCopyAdvance idx (windowPush ex.window v).length)
          { ex with window := windowPush ex.window v } { buf with out := buf.out ++ [v] }

/-- With an unbounded buffer, the `Copy` loop never suspends and never
fails: it either finishes the copy or indexes out of bounds. -/
theorem copyLoop_none_not_full :
    ∀ (len idx : Nat) (ex : Explode) (o : List Nat),
      (∀ ex' buf', copyLoop ex ⟨none, o⟩ idx len ≠ .full ex' buf') ∧
      (∀ e ex' buf', copyLoop ex ⟨none, o⟩ idx len ≠ .fail e ex' buf') := by
  intro len
  induction len with
  | zero =>
    intro idx ex o
    constructor <;> intro _ _ <;> simp [copyLoop]
  | succ n ih =>
    intro idx ex o
    rw [copyLoop]
    have hff : (⟨none, o⟩ : Buf).isFull = false := rfl
    simp only [hff, Bool.false_eq_true, if_false]
    cases hg : ex.window.get? idx with
    | none => constructor <;> intro _ _ <;> simp
    | some v =>
      simp only []
      exact ih _ _ _

/-- The `Copy` loop with a bounded buffer, against the same loop with an
unbounded buffer holding `o ++ s`: completed copies and panics agree, and
a suspension (buffer full) leaves the unbounded loop resumable from the
suspended state with nothing else changed. -/
theorem copySim :
    ∀ (len idx : Nat) (ex : Explode) (c : Nat) (s o : List Nat),
      (∀ ex' buf', copyLoop ex ⟨some c, s⟩ idx len = .next ex' buf' →
        ∃ s', buf' = ⟨some c, s'⟩ ∧
          copyLoop ex ⟨none, o ++ s⟩ idx len = .next ex' ⟨none, o ++ s'⟩) ∧
      (∀ f, copyLoop ex ⟨some c, s⟩ idx len = .crash f →
        copyLoop ex ⟨none, o ++ s⟩ idx len = .crash f) ∧
      (∀ ex' buf', copyLoop ex ⟨some c, s⟩ idx len = .full ex' buf' →
        ∃ s' idx2 len2 w2, buf' = ⟨some c, s'⟩ ∧
          ex' = { ex with state := .Copy idx2 len2, window := w2 } ∧
          copyLoop ex ⟨none, o ++ s⟩ idx len =
            copyLoop { ex with window := w2 } ⟨none, o ++ s'⟩ idx2 len2) := by
  intro len
  induction len with
  | zero =>
    intro idx ex c s o
    refine ⟨?_, ?_, ?_⟩
    · intro ex' buf' h
      rw [copyLoop] at h
      cases h
      exact ⟨s, rfl, rfl⟩
    · intro f h
      rw [copyLoop] at h
      cases h
    · intro ex' buf' h
      rw [copyLoop] at h
      cases h
  | succ n ih =>
    intro idx ex c s o
    by_cases hful : (⟨some c, s⟩ : Buf).isFull
    · refine ⟨?_, ?_, ?_⟩
      · intro ex' buf' h
        rw [copyLoop] at h
        rw [if_pos hful] at h
        cases h
      · intro f h
        rw [copyLoop] at h
        rw [if_pos hful] at h
        cases h
      · intro ex' buf' h
        rw [copyLoop] at h
        rw [if_pos hful] at h
        cases h
        refine ⟨s, idx, n + 1, ex.window, rfl, rfl, rfl⟩
    · have hred : copyLoop ex ⟨some c, s⟩ idx (n + 1) =
          match ex.window.get? idx with
          | none => .crash .indexOutOfBounds
          | some value =>
            copyLoop { ex with window := windowPush ex.window value }
              { cap := some c, out := s ++ [value] }
              (explodeCopyAdvance idx (windowPush ex.window value).length) n := by
        rw [copyLoop, if_neg hful]
      have hredN : copyLoop ex ⟨none, o ++ s⟩ idx (n + 1) =
          match ex.window.get? idx with
          | none => .crash .indexOutOfBounds
          | some value =>
            copyLoop { ex with window := windowPush ex.window value }
              { cap := none, out := (o ++ s) ++ [value] }
              (explodeCopyAdvance idx (windowPush ex.window value).length) n := by
        rw [copyLoop]
        rfl
      cases hg : ex.window.get? idx with
      | none =>
        rw [hg] at hred hredN
        refine ⟨?_, ?_, ?_⟩
        · intro ex' buf' h
          rw [hred] at h
          cases h
        · intro f h
          rw [hred] at h
          cases h
          exact hredN
        · intro ex' buf' h
          rw [hred] at h
          cases h
      | some v =>
        rw [hg] at hred hredN
        simp only [] at hred hredN
        rw [List.append_assoc] at hredN
        obtain ⟨ihNext, ihCrash, ihFull⟩ :=
          ih (explodeCopyAdvance idx (windowPush ex.window v).length)
            { ex with window := windowPush ex.window v } c (s ++ [v]) o
        refine ⟨?_, ?_, ?_⟩
        · intro ex' buf' h
          rw [hred] at h
          obtain ⟨s', hbuf, hnone⟩ := ihNext ex' buf' h
          exact ⟨s', hbuf, by rw [hredN]; exact hnone⟩
        · intro f h
          rw [hred] at h
          rw [hredN]
          exact ihCrash f h
        · intro ex' buf' h
          rw [hred] at h
          obtain ⟨s', idx2, len2, w2, hbuf, hex, heq⟩ := ihFull ex' buf' h
          refine ⟨s', idx2, len2, w2, hbuf, ?_, ?_⟩
          · rw [hex]
          · rw [hredN, heq]

theorem fillGo_next :
    ∀ (gas n : Nat) (inp : ExplodeInput) (u : Unit) (inp' : ExplodeInput),
      inp.next ≠ .Waiting → fillGo gas n inp = .ok (.ok u, inp') →
      inp'.next ≠ .Waiting := by
  intro gas
  induction gas with
  | zero =>
    intro n inp u inp' hnw h
    rw [fillGo] at h
    cases h
    exact hnw
  | succ g ih =>
    intro n inp u inp' hnw h
    rw [fillGo] at h
    by_cases hc : inp.bitcount < n
    · rw [if_pos hc] at h
      cases hnx : inp.next with
      | Waiting => exact absurd hnx hnw
      | Taken => rw [hnx] at h; cases h
      | Available v =>
        rw [hnx] at h
        simp only [ExplodeInputState.take] at h
        exact ih n _ u inp' (by simp) h
    · rw [if_neg hc] at h
      cases h
      exact hnw

theorem bits_next (n : Nat) (inp : ExplodeInput) (v : Nat) (inp' : ExplodeInput)
    (hnw : inp.next ≠ .Waiting) (h : inp.bits n = .ok (.ok v, inp')) :
    inp'.next ≠ .Waiting := by
  unfold ExplodeInput.bits ExplodeInput.fill at h
  cases hf : fillGo 2 n inp with
  | error f => rw [hf] at h; cases h
  | ok p =>
    rcases p with ⟨e | u, inp2⟩
    · rw [hf] at h; cases h
    · rw [hf] at h
      cases h
      exact fillGo_next 2 n inp u inp2 hnw hf

theorem decodeSymGo_next (t : CanonicalHuffman) :
    ∀ (gas : Nat) (d : HuffDecoder) (inp : ExplodeInput) (v : Nat)
      (inp' : ExplodeInput) (d' : HuffDecoder),
      inp.next ≠ .Waiting → decodeSymGo t gas d inp = .ok (.ok v, inp', d') →
      inp'.next ≠ .Waiting := by
  intro gas
  induction gas with
  | zero =>
    intro d inp v inp' d' hnw h
    rw [decodeSymGo] at h
    cases h
  | succ g ih =>
    intro d inp v inp' d' hnw h
    rw [decodeSymGo] at h
    cases hb : inp.bits 1 with
    | error f => rw [hb] at h; cases h
    | ok p =>
      rcases p with ⟨e | u, inp2⟩
      · rw [hb] at h; cases h
      · rw [hb] at h
        simp only [] at h
        have hnext2 := bits_next 1 inp u inp2 hnw hb
        cases hfd : HuffDecoder.feed t d (u != 1) with
        | none => rw [hfd] at h; cases h
        | some r =>
          rcases r with ⟨res, d2⟩
          cases res with
          | Incomplete =>
            rw [hfd] at h
            exact ih d2 inp2 v inp' d' hnext2 h
          | Invalid => rw [hfd] at h; cases h
          | Ok s =>
            rw [hfd] at h
            cases h
            exact hnext2

theorem decodeSym_next (t : CanonicalHuffman) (d : HuffDecoder) (inp : ExplodeInput)
    (v : Nat) (inp' : ExplodeInput) (d' : HuffDecoder)
    (hnw : inp.next ≠ .Waiting)
    (h : ExplodeInput.decodeSym t d inp = .ok (.ok v, inp', d')) :
    inp'.next ≠ .Waiting :=
  decodeSymGo_next t (inp.avail + 1) d inp v inp' d' hnw h

theorem copyLoop_fields :
    ∀ (len idx : Nat) (ex : Explode) (buf : Buf),
      match copyLoop ex buf idx len with
      | .next ex' _ => ex'.input = ex.input ∧ ex'.lit = ex.lit ∧ ex'.dict = ex.dict
      | .full ex' _ => ex'.input = ex.input ∧ ex'.lit = ex.lit ∧ ex'.dict = ex.dict
      | .fail _ _ _ => True
      | .crash _ => True := by
  intro len
  induction len with
  | zero => intro idx ex buf; rw [copyLoop]; exact ⟨rfl, by trivial, by trivial⟩
  | succ n ih =>
    intro idx ex buf
    rw [copyLoop]
    by_cases hf : buf.isFull
    · rw [if_pos hf]; exact ⟨rfl, by trivial, by trivial⟩
    · rw [if_neg hf]
      cases hg : ex.window.get? idx with
      | none => trivial
      | some v =>
        simp only []
        exact ih (explodeCopyAdvance idx (windowPush ex.window v).length)
          { ex with window := windowPush ex.window v } { buf with out := buf.out ++ [v] }

/-- Along continue and suspend outcomes of a step, the input slot stays
non-`Waiting` and the cached header fields are untouched. -/
theorem feedStep_keeps (lit dict : Nat) (ex : Explode) (buf : Buf)
    (hnw : ex.input.next ≠ .Waiting) :
    match feedStep lit dict ex buf with
    | .next ex' _ => ex'.input.next ≠ .Waiting ∧ ex'.lit = ex.lit ∧ ex'.dict = ex.dict
    | .full ex' _ => ex'.input.next ≠ .Waiting ∧ ex'.lit = ex.lit ∧ ex'.dict = ex.dict
    | .fail _ _ _ => True
    | .crash _ => True := by
  rcases ex with ⟨st, hl, hd, inp, w⟩
  simp only [] at hnw
  cases st with
  | Start =>
    simp only [feedStep]
    cases hb : inp.bits 1 with
    | error f => trivial
    | ok p =>
      rcases p with ⟨e | v, inp'⟩
      · trivial
      · simp only []
        have hn := bits_next 1 inp v inp' hnw hb
        by_cases hv : 0 < v
        · rw [if_pos hv]; exact ⟨hn, by trivial, by trivial⟩
        · rw [if_neg hv]
          by_cases hlit : 0 < lit
          · rw [if_pos hlit]; exact ⟨hn, by trivial, by trivial⟩
          · rw [if_neg hlit]; exact ⟨hn, by trivial, by trivial⟩
  | Length d =>
    simp only [feedStep]
    cases hb : ExplodeInput.decodeSym LENGTH d inp with
    | error f => trivial
    | ok p =>
      rcases p with ⟨e | v, inp', d'⟩
      · trivial
      · exact ⟨decodeSym_next LENGTH d inp v inp' d' hnw hb, by trivial, by trivial⟩
  | LengthExtra symbol =>
    simp only [feedStep]
    cases hLB : LEN_BASE.get? symbol with
    | none => trivial
    | some base =>
      cases hLE : LEN_EXTRA.get? symbol with
      | none => trivial
      | some nbits =>
        simp only []
        cases hb : inp.bits nbits with
        | error f => trivial
        | ok p =>
          rcases p with ⟨e | v, inp'⟩
          · trivial
          · simp only []
            have hn := bits_next nbits inp v inp' hnw hb
            by_cases h519 : base + v = 519
            · rw [if_pos h519]; exact ⟨hn, by trivial, by trivial⟩
            · rw [if_neg h519]; exact ⟨hn, by trivial, by trivial⟩
  | Distance len d =>
    simp only [feedStep]
    cases hb : ExplodeInput.decodeSym DISTANCE d inp with
    | error f => trivial
    | ok p =>
      rcases p with ⟨e | v, inp', d'⟩
      · trivial
      · exact ⟨decodeSym_next DISTANCE d inp v inp' d' hnw hb, by trivial, by trivial⟩
  | DistanceExtra len symbol =>
    simp only [feedStep]
    cases hb : inp.bits (if len = 2 then 2 else dict) with
    | error f => trivial
    | ok p =>
      rcases p with ⟨e | v, inp'⟩
      · trivial
      · simp only []
        have hn := bits_next (if len = 2 then 2 else dict) inp v inp' hnw hb
        by_cases hdist : w.length < v + 1 + (symbol <<< if len = 2 then 2 else dict)
        · rw [if_pos hdist]; trivial
        · rw [if_neg hdist]; exact ⟨hn, by trivial, by trivial⟩
  | Copy idx len =>
    simp only [feedStep]
    have hcf := copyLoop_fields len idx ⟨.Copy idx len, hl, hd, inp, w⟩ buf
    cases hc : copyLoop ⟨.Copy idx len, hl, hd, inp, w⟩ buf idx len with
    | next ex' buf' =>
      rw [hc] at hcf
      obtain ⟨h1, h2, h3⟩ := hcf
      exact ⟨by rw [h1]; exact hnw, h2, h3⟩
    | full ex' buf' =>
      rw [hc] at hcf
      obtain ⟨h1, h2, h3⟩ := hcf
      exact ⟨by rw [h1]; exact hnw, h2, h3⟩
    | fail e ex' buf' => trivial
    | crash f => trivial
  | Literal =>
    simp only [feedStep]
    by_cases hful : buf.isFull = true
    · rw [if_pos hful]
      exact ⟨hnw, by trivial, by trivial⟩
    · rw [if_neg hful]
      cases hb : inp.bits 8 with
      | error f => trivial
      | ok p =>
        rcases p with ⟨e | v, inp'⟩
        · trivial
        · exact ⟨bits_next 8 inp v inp' hnw hb, by trivial, by trivial⟩
  | LiteralCoded d =>
    simp only [feedStep]
    by_cases hful : buf.isFull = true
    · rw [if_pos hful]
      exact ⟨hnw, by trivial, by trivial⟩
    · rw [if_neg hful]
      cases hb : ExplodeInput.decodeSym LITERAL d inp with
      | error f => trivial
      | ok p =>
        rcases p with ⟨e | v, inp', d'⟩
        · trivial
        · exact ⟨decodeSym_next LITERAL d inp v inp' d' hnw hb, by trivial, by trivial⟩
  | End =>
    simp only [feedStep]
    exact ⟨hnw, by trivial, by trivial⟩
theorem copyLoop_cap :
    ∀ (len idx : Nat) (ex : Explode) (buf : Buf),
      match copyLoop ex buf idx len with
      | .next _ buf' => buf'.cap = buf.cap
      | .full _ buf' => buf'.cap = buf.cap
      | .fail _ _ buf' => buf'.cap = buf.cap
      | .crash _ => True := by
  intro len
  induction len with
  | zero => intro idx ex buf; rw [copyLoop]
  | succ n ih =>
    intro idx ex buf
    rw [copyLoop]
    by_cases hf : buf.isFull
    · rw [if_pos hf]
    · rw [if_neg hf]
      cases hg : ex.window.get? idx with
      | none => trivial
      | some v =>
        simp only []
        exact ih (explodeCopyAdvance idx (windowPush ex.window v).length)
          { ex with window := windowPush ex.window v } { buf with out := buf.out ++ [v] }

/-- A step never changes the buffer capacity. -/
theorem stepCapPres (lit dict : Nat) (ex : Explode) (buf : Buf) :
    match feedStep lit dict ex buf with
    | .next _ buf' => buf'.cap = buf.cap
    | .full _ buf' => buf'.cap = buf.cap
    | .fail _ _ buf' => buf'.cap = buf.cap
    | .crash _ => True := by
  rcases ex with ⟨st, hl, hd, inp, w⟩
  cases st with
  | Start =>
    simp only [feedStep]
    cases hb : inp.bits 1 with
    | error f => trivial
    | ok p =>
      rcases p with ⟨e | v, inp'⟩
      · trivial
      · simp only []
        by_cases hv : 0 < v
        · rw [if_pos hv]
        · rw [if_neg hv]
          by_cases hlit : 0 < lit
          · rw [if_pos hlit]
          · rw [if_neg hlit]
  | Length d =>
    simp only [feedStep]
    cases hb : ExplodeInput.decodeSym LENGTH d inp with
    | error f => trivial
    | ok p =>
      rcases p with ⟨e | v, inp', d'⟩ <;> trivial
  | LengthExtra symbol =>
    simp only [feedStep]
    cases hLB : LEN_BASE.get? symbol with
    | none => trivial
    | some base =>
      cases hLE : LEN_EXTRA.get? symbol with
      | none => trivial
      | some nbits =>
        simp only []
        cases hb : inp.bits nbits with
        | error f => trivial
        | ok p =>
          rcases p with ⟨e | v, inp'⟩
          · trivial
          · simp only []
            by_cases h519 : base + v = 519
            · rw [if_pos h519]
            · rw [if_neg h519]
  | Distance len d =>
    simp only [feedStep]
    cases hb : ExplodeInput.decodeSym DISTANCE d inp with
    | error f => trivial
    | ok p =>
      rcases p with ⟨e | v, inp', d'⟩ <;> trivial
  | DistanceExtra len symbol =>
    simp only [feedStep]
    cases hb : inp.bits (if len = 2 then 2 else dict) with
    | error f => trivial
    | ok p =>
      rcases p with ⟨e | v, inp'⟩
      · trivial
      · simp only []
        by_cases hdist : w.length < v + 1 + (symbol <<< if len = 2 then 2 else dict)
        · rw [if_pos hdist]
        · rw [if_neg hdist]
  | Copy idx len =>
    simp only [feedStep]
    exact copyLoop_cap len idx ⟨.Copy idx len, hl, hd, inp, w⟩ buf
  | Literal =>
    simp only [feedStep]
    by_cases hful : buf.isFull = true
    · rw [if_pos hful]
    · rw [if_neg hful]
      cases hb : inp.bits 8 with
      | error f => trivial
      | ok p =>
        rcases p with ⟨e | v, inp'⟩ <;> trivial
  | LiteralCoded d =>
    simp only [feedStep]
    by_cases hful : buf.isFull = true
    · rw [if_pos hful]
    · rw [if_neg hful]
      cases hb : ExplodeInput.decodeSym LITERAL d inp with
      | error f => trivial
      | ok p =>
        rcases p with ⟨e | v, inp', d'⟩ <;> trivial
  | End =>
    simp only [feedStep]

/-- With an unbounded buffer, a step suspends only in the `End` state,
changing nothing. -/
theorem noneStep_full (lit dict : Nat) (ex : Explode) (o : List Nat) (ex' : Explode)
    (buf' : Buf) (h : feedStep lit dict ex ⟨none, o⟩ = .full ex' buf') :
    ex.state = .End ∧ ex' = ex ∧ buf' = ⟨none, o⟩ := by
  rcases ex with ⟨st, hl, hd, inp, w⟩
  cases st with
  | Start =>
    simp only [feedStep] at h
    cases hb : inp.bits 1 with
    | error f => rw [hb] at h; cases h
    | ok p =>
      rcases p with ⟨e | v, inp'⟩
      · rw [hb] at h; cases h
      · rw [hb] at h
        simp only [] at h
        by_cases hv : 0 < v
        · rw [if_pos hv] at h; cases h
        · rw [if_neg hv] at h
          by_cases hlit : 0 < lit
          · rw [if_pos hlit] at h; cases h
          · rw [if_neg hlit] at h; cases h
  | Length d =>
    simp only [feedStep] at h
    cases hb : ExplodeInput.decodeSym LENGTH d inp with
    | error f => rw [hb] at h; cases h
    | ok p =>
      rcases p with ⟨e | v, inp', d'⟩
      · rw [hb] at h; cases h
      · rw [hb] at h; cases h
  | LengthExtra symbol =>
    simp only [feedStep] at h
    cases hLB : LEN_BASE.get? symbol with
    | none => rw [hLB] at h; cases h
    | some base =>
      rw [hLB] at h
      cases hLE : LEN_EXTRA.get? symbol with
      | none => rw [hLE] at h; cases h
      | some nbits =>
        rw [hLE] at h
        simp only [] at h
        cases hb : inp.bits nbits with
        | error f => rw [hb] at h; cases h
        | ok p =>
          rcases p with ⟨e | v, inp'⟩
          · rw [hb] at h; cases h
          · rw [hb] at h
            simp only [] at h
            by_cases h519 : base + v = 519
            · rw [if_pos h519] at h; cases h
            · rw [if_neg h519] at h; cases h
  | Distance len d =>
    simp only [feedStep] at h
    cases hb : ExplodeInput.decodeSym DISTANCE d inp with
    | error f => rw [hb] at h; cases h
    | ok p =>
      rcases p with ⟨e | v, inp', d'⟩
      · rw [hb] at h; cases h
      · rw [hb] at h; cases h
  | DistanceExtra len symbol =>
    simp only [feedStep] at h
    cases hb : inp.bits (if len = 2 then 2 else dict) with
    | error f => rw [hb] at h; cases h
    | ok p =>
      rcases p with ⟨e | v, inp'⟩
      · rw [hb] at h; cases h
      · rw [hb] at h
        simp only [] at h
        by_cases hdist : w.length < v + 1 + (symbol <<< if len = 2 then 2 else dict)
        · rw [if_pos hdist] at h; cases h
        · rw [if_neg hdist] at h; cases h
  | Copy idx len =>
    simp only [feedStep] at h
    exact absurd h ((copyLoop_none_not_full len idx ⟨.Copy idx len, hl, hd, inp, w⟩ o).1 ex' buf')
  | Literal =>
    simp only [feedStep] at h
    have hful : (⟨none, o⟩ : Buf).isFull = false := rfl
    rw [hful] at h
    simp only [Bool.false_eq_true, if_false] at h
    cases hb : inp.bits 8 with
    | error f => rw [hb] at h; cases h
    | ok p =>
      rcases p with ⟨e | v, inp'⟩
      · rw [hb] at h; cases h
      · rw [hb] at h; cases h
  | LiteralCoded d =>
    simp only [feedStep] at h
    have hful : (⟨none, o⟩ : Buf).isFull = false := rfl
    rw [hful] at h
    simp only [Bool.false_eq_true, if_false] at h
    cases hb : ExplodeInput.decodeSym LITERAL d inp with
    | error f => rw [hb] at h; cases h
    | ok p =>
      rcases p with ⟨e | v, inp', d'⟩
      · rw [hb] at h; cases h
      · rw [hb] at h; cases h
  | End =>
    simp only [feedStep] at h
    cases h
    exact ⟨rfl, rfl, rfl⟩

theorem feedLoop_none_ok (lit dict : Nat) :
    ∀ (fuel : Nat) (ex : Explode) (o : List Nat) (ex' : Explode) (buf' : Buf),
      feedLoop fuel lit dict ex ⟨none, o⟩ = .ok ex' buf' →
      ex'.state = .End := by
  intro fuel
  induction fuel with
  | zero =>
    intro ex o ex' buf' h
    rw [feedLoop] at h
    cases h
  | succ n ih =>
    intro ex o ex' buf' h
    rw [feedLoop] at h
    cases hs : feedStep lit dict ex ⟨none, o⟩ with
    | next ex1 buf1 =>
      rw [hs] at h
      simp only [] at h
      have hcap : buf1.cap = none := by
        have hc := stepCapPres lit dict ex ⟨none, o⟩
        rw [hs] at hc
        exact hc
      rcases buf1 with ⟨cap1, out1⟩
      simp only [] at hcap
      subst hcap
      exact ih ex1 out1 ex' buf' h
    | full ex1 buf1 =>
      rw [hs] at h
      simp only [] at h
      obtain ⟨hEnd, hex, -⟩ := noneStep_full lit dict ex o ex1 buf1 hs
      cases h
      rw [hex]
      exact hEnd
    | fail e ex1 buf1 => rw [hs] at h; cases h
    | crash f => rw [hs] at h; cases h

theorem offer_not_waiting (s : ExplodeInputState) (v : Nat) :
    s.feed v ≠ .Waiting := by
  cases s <;> simp [ExplodeInputState.feed]

theorem offer_noop (s : ExplodeInputState) (v : Nat) (h : s ≠ .Waiting) :
    s.feed v = s := by
  cases s with
  | Available w => rfl
  | Taken => rfl
  | Waiting => exact absurd rfl h

theorem copyLoop_no_fail :
    ∀ (len idx : Nat) (ex : Explode) (buf : Buf) (e : Error) (ex' : Explode) (buf' : Buf),
      copyLoop ex buf idx len ≠ .fail e ex' buf' := by
  intro len
  induction len with
  | zero =>
    intro idx ex buf e ex' buf' h
    rw [copyLoop] at h
    cases h
  | succ n ih =>
    intro idx ex buf e ex' buf' h
    rw [copyLoop] at h
    by_cases hf : buf.isFull
    · rw [if_pos hf] at h; cases h
    · rw [if_neg hf] at h
      cases hg : ex.window.get? idx with
      | none => rw [hg] at h; cases h
      | some v =>
        rw [hg] at h
        simp only [] at h
        exact ih _ _ _ e ex' buf' h

theorem feedLoop_keeps (lit dict : Nat) :
    ∀ (fuel : Nat) (ex : Explode) (buf : Buf) (ex' : Explode) (buf' : Buf),
      ex.input.next ≠ .Waiting →
      feedLoop fuel lit dict ex buf = .ok ex' buf' →
      ex'.input.next ≠ .Waiting ∧ ex'.lit = ex.lit ∧ ex'.dict = ex.dict := by
  intro fuel
  induction fuel with
  | zero =>
    intro ex buf ex' buf' hnw h
    rw [feedLoop] at h
    cases h
  | succ n ih =>
    intro ex buf ex' buf' hnw h
    rw [feedLoop] at h
    have hk := feedStep_keeps lit dict ex buf hnw
    cases hs : feedStep lit dict ex buf with
    | next ex1 buf1 =>
      rw [hs] at h hk
      simp only [] at h hk
      obtain ⟨k1, k2, k3⟩ := hk
      obtain ⟨r1, r2, r3⟩ := ih ex1 buf1 ex' buf' k1 h
      exact ⟨r1, r2.trans k2, r3.trans k3⟩
    | full ex1 buf1 =>
      rw [hs] at h hk
      simp only [] at h hk
      cases h
      exact hk
    | fail e ex1 buf1 => rw [hs] at h; cases h
    | crash f => rw [hs] at h; cases h

theorem headerRun_ok_fields (ex : Explode) (b lit dict : Nat) (exH : Explode)
    (h : headerRun ex b = .ok lit dict exH) :
    exH.input.next ≠ .Waiting ∧ exH.lit = some lit ∧ exH.dict = some dict := by
  rcases ex with ⟨st, hl, hd, ⟨nx, bb, bc⟩, w⟩
  unfold headerRun headerDict at h
  simp only [] at h
  cases hl with
  | some l =>
    cases hd with
    | some d =>
      cases h
      exact ⟨offer_not_waiting nx b, rfl, rfl⟩
    | none =>
      cases hb8 : (⟨nx.feed b, bb, bc⟩ : ExplodeInput).bits 8 with
      | error f => rw [hb8] at h; cases h
      | ok p =>
        rcases p with ⟨e | v, inp'⟩
        · rw [hb8] at h; cases h
        · rw [hb8] at h
          simp only [] at h
          by_cases hv : v < 4 || 6 < v
          · rw [if_pos hv] at h; cases h
          · rw [if_neg hv] at h
            cases h
            exact ⟨bits_next 8 _ _ _ (offer_not_waiting nx b) hb8,
              rfl, rfl⟩
  | none =>
    cases hb8 : (⟨nx.feed b, bb, bc⟩ : ExplodeInput).bits 8 with
    | error f => rw [hb8] at h; cases h
    | ok p =>
      rcases p with ⟨e | v, inp'⟩
      · rw [hb8] at h; cases h
      · rw [hb8] at h
        simp only [] at h
        by_cases hv : 1 < v
        · rw [if_pos hv] at h; cases h
        · rw [if_neg hv] at h
          cases hd with
          | some d =>
            simp only [] at h
            cases h
            exact ⟨bits_next 8 _ _ _ (offer_not_waiting nx b) hb8,
              rfl, rfl⟩
          | none =>
            simp only [] at h
            cases hb2 : inp'.bits 8 with
            | error f => rw [hb2] at h; cases h
            | ok p2 =>
              rcases p2 with ⟨e2 | v2, inp2⟩
              · rw [hb2] at h; cases h
              · rw [hb2] at h
                simp only [] at h
                by_cases hv2 : v2 < 4 || 6 < v2
                · rw [if_pos hv2] at h; cases h
                · rw [if_neg hv2] at h
                  cases h
                  have h1 := bits_next 8 _ _ _ (offer_not_waiting nx b) hb8
                  exact ⟨bits_next 8 _ _ _ h1 hb2, rfl, rfl⟩

theorem resumeFeed (L D : Nat) (ex : Explode) (hl : ex.lit = some L)
    (hd : ex.dict = some D) (hnw : ex.input.next ≠ .Waiting) (fuel : Nat) (buf : Buf)
    (b : Nat) : Explode.feed fuel ex buf b = feedLoop fuel L D ex buf := by
  rcases ex with ⟨st, l, d, ⟨nx, bb, bc⟩, w⟩
  simp only [] at hl hd hnw
  subst hl
  subst hd
  unfold Explode.feed feedDict
  simp only []
  rw [offer_noop nx b hnw]

theorem feedLoop_end (lit dict : Nat) (ex : Explode) (buf : Buf) (h : ex.state = .End) :
    feedLoop (0 + 1) lit dict ex buf = .ok ex buf := by
  rcases ex with ⟨st, l, d, inp, w⟩
  simp only [] at h
  subst h
  rfl

theorem driverShift (d F : Nat) (ex ex' : Explode) (o o' z : List Nat) (b : Nat)
    (rest : List Nat)
    (h : Explode.feed F ex ⟨none, o⟩ b = Explode.feed F ex' ⟨none, o'⟩ b) :
    ewbLoop (d + 1) F ex ⟨none, o⟩ z (b :: rest) =
      ewbLoop (d + 1) F ex' ⟨none, o'⟩ z (b :: rest) := by
  rw [ewbLoop, ewbLoop, h]
/-- One step with a bounded buffer, against the same step with an unbounded
buffer holding `o ++ s`: continue, fail and panic outcomes agree (with the
unbounded output extended the same way), and a suspension leaves the
unbounded step computable from the suspended state. -/
theorem stepSim (lit dict : Nat) (ex : Explode) (c : Nat) (s o : List Nat) :
    match feedStep lit dict ex ⟨some c, s⟩ with
    | .next ex' buf' => ∃ s2, buf' = ⟨some c, s2⟩ ∧
        feedStep lit dict ex ⟨none, o ++ s⟩ = .next ex' ⟨none, o ++ s2⟩
    | .fail e ex' buf' => ∃ s2, buf' = ⟨some c, s2⟩ ∧
        feedStep lit dict ex ⟨none, o ++ s⟩ = .fail e ex' ⟨none, o ++ s2⟩
    | .crash f0 => feedStep lit dict ex ⟨none, o ++ s⟩ = .crash f0
    | .full ex' buf' => ∃ s2, buf' = ⟨some c, s2⟩ ∧
        feedStep lit dict ex ⟨none, o ++ s⟩ = feedStep lit dict ex' ⟨none, o ++ s2⟩ := by
  rcases ex with ⟨st, hl, hd, inp, w⟩
  cases st with
  | Start =>
    simp only [feedStep]
    cases hb : inp.bits 1 with
    | error f => rfl
    | ok p =>
      rcases p with ⟨e | v, inp'⟩
      · exact ⟨s, rfl, rfl⟩
      · simp only []
        by_cases hv : 0 < v
        · simp only [if_pos hv]
          exact ⟨s, rfl, rfl⟩
        · simp only [if_neg hv]
          by_cases hlit : 0 < lit
          · simp only [if_pos hlit]
            exact ⟨s, rfl, rfl⟩
          · simp only [if_neg hlit]
            exact ⟨s, rfl, rfl⟩
  | Length d =>
    simp only [feedStep]
    cases hb : ExplodeInput.decodeSym LENGTH d inp with
    | error f => rfl
    | ok p =>
      rcases p with ⟨e | v, inp', d'⟩
      · exact ⟨s, rfl, rfl⟩
      · exact ⟨s, rfl, rfl⟩
  | LengthExtra symbol =>
    simp only [feedStep]
    cases hLB : LEN_BASE.get? symbol with
    | none => rfl
    | some base =>
      cases hLE : LEN_EXTRA.get? symbol with
      | none => rfl
      | some nbits =>
        simp only []
        cases hb : inp.bits nbits with
        | error f => rfl
        | ok p =>
          rcases p with ⟨e | v, inp'⟩
          · exact ⟨s, rfl, rfl⟩
          · simp only []
            by_cases h519 : base + v = 519
            · simp only [if_pos h519]
              exact ⟨s, rfl, rfl⟩
            · simp only [if_neg h519]
              exact ⟨s, rfl, rfl⟩
  | Distance len d =>
    simp only [feedStep]
    cases hb : ExplodeInput.decodeSym DISTANCE d inp with
    | error f => rfl
    | ok p =>
      rcases p with ⟨e | v, inp', d'⟩
      · exact ⟨s, rfl, rfl⟩
      · exact ⟨s, rfl, rfl⟩
  | DistanceExtra len symbol =>
    simp only [feedStep]
    cases hb : inp.bits (if len = 2 then 2 else dict) with
    | error f => rfl
    | ok p =>
      rcases p with ⟨e | v, inp'⟩
      · exact ⟨s, rfl, rfl⟩
      · simp only []
        by_cases hdist : w.length < v + 1 + (symbol <<< if len = 2 then 2 else dict)
        · simp only [if_pos hdist]
          exact ⟨s, rfl, rfl⟩
        · simp only [if_neg hdist]
          exact ⟨s, rfl, rfl⟩
  | Copy idx len =>
    simp only [feedStep]
    cases hcl : copyLoop ⟨.Copy idx len, hl, hd, inp, w⟩ ⟨some c, s⟩ idx len with
    | next ex' buf' =>
      exact (copySim len idx ⟨.Copy idx len, hl, hd, inp, w⟩ c s o).1 ex' buf' hcl
    | full ex' buf' =>
      obtain ⟨s2, idx2, len2, w2, hbuf, hex, heq⟩ :=
        (copySim len idx ⟨.Copy idx len, hl, hd, inp, w⟩ c s o).2.2 ex' buf' hcl
      refine ⟨s2, hbuf, ?_⟩
      rw [heq, hex]
      simp only [feedStep]
      exact (copyLoop_state_irrel (.Copy idx2 len2) len2 idx2
        ⟨.Copy idx len, hl, hd, inp, w2⟩ ⟨none, o ++ s2⟩).symm
    | fail e ex' buf' =>
      exact absurd hcl (copyLoop_no_fail len idx _ _ e ex' buf')
    | crash f0 =>
      exact (copySim len idx ⟨.Copy idx len, hl, hd, inp, w⟩ c s o).2.1 f0 hcl
  | Literal =>
    simp only [feedStep]
    by_cases hful : (⟨some c, s⟩ : Buf).isFull = true
    · simp only [if_pos hful]
      exact ⟨s, rfl, rfl⟩
    · simp only [if_neg hful]
      cases hb : inp.bits 8 with
      | error f => rfl
      | ok p =>
        rcases p with ⟨e | v, inp'⟩
        · exact ⟨s, rfl, rfl⟩
        · refine ⟨s ++ [v], rfl, ?_⟩
          rw [← List.append_assoc]
          rfl
  | LiteralCoded d =>
    simp only [feedStep]
    by_cases hful : (⟨some c, s⟩ : Buf).isFull = true
    · simp only [if_pos hful]
      exact ⟨s, rfl, rfl⟩
    · simp only [if_neg hful]
      cases hb : ExplodeInput.decodeSym LITERAL d inp with
      | error f => rfl
      | ok p =>
        rcases p with ⟨e | v, inp', d'⟩
        · exact ⟨s, rfl, rfl⟩
        · refine ⟨s ++ [v], rfl, ?_⟩
          rw [← List.append_assoc]
          rfl
  | End =>
    simp only [feedStep]
    exact ⟨s, rfl, rfl⟩
/-- The state-machine loop with a bounded buffer, against the same loop with
an unbounded buffer holding `o ++ s`: fail and panic outcomes agree for some
unbounded fuel; a completed (`Ok`) run ends in a state from which any
non-out-of-fuel unbounded continuation is also a full unbounded run from the
original state. -/
theorem flSim (lit dict : Nat) :
    ∀ (fuel : Nat) (ex : Explode) (c : Nat) (s o : List Nat),
      (∀ ex' buf', feedLoop fuel lit dict ex ⟨some c, s⟩ = .ok ex' buf' →
        ∃ s2, buf' = ⟨some c, s2⟩ ∧
          ∀ (g : Nat) (R : FeedOut), feedLoop g lit dict ex' ⟨none, o ++ s2⟩ = R →
            R ≠ .outOfFuel → ∃ f2, feedLoop f2 lit dict ex ⟨none, o ++ s⟩ = R) ∧
      (∀ e ex' buf', feedLoop fuel lit dict ex ⟨some c, s⟩ = .err e ex' buf' →
        ∃ s2, buf' = ⟨some c, s2⟩ ∧
          ∃ f2, feedLoop f2 lit dict ex ⟨none, o ++ s⟩ = .err e ex' ⟨none, o ++ s2⟩) ∧
      (∀ f0, feedLoop fuel lit dict ex ⟨some c, s⟩ = .crash f0 →
        ∃ f2, feedLoop f2 lit dict ex ⟨none, o ++ s⟩ = .crash f0) := by
  intro fuel
  induction fuel with
  | zero =>
    intro ex c s o
    refine ⟨?_, ?_, ?_⟩
    · intro ex' buf' h
      rw [feedLoop] at h
      cases h
    · intro e ex' buf' h
      rw [feedLoop] at h
      cases h
    · intro f0 h
      rw [feedLoop] at h
      cases h
  | succ n ih =>
    intro ex c s o
    have SS := stepSim lit dict ex c s o
    refine ⟨?_, ?_, ?_⟩
    · intro ex' buf' h
      rw [feedLoop] at h
      cases hs : feedStep lit dict ex ⟨some c, s⟩ with
      | next ex1 buf1 =>
        rw [hs] at h SS
        simp only [] at h SS
        obtain ⟨s1, hb1, hn1⟩ := SS
        subst hb1
        obtain ⟨s2, hbuf, P⟩ := (ih ex1 c s1 o).1 ex' buf' h
        refine ⟨s2, hbuf, ?_⟩
        intro g R hR hne
        obtain ⟨f2, hf2⟩ := P g R hR hne
        refine ⟨f2 + 1, ?_⟩
        rw [feedLoop, hn1]
        exact hf2
      | full ex1 buf1 =>
        rw [hs] at h SS
        simp only [] at h SS
        cases h
        obtain ⟨s2, hb1, heq⟩ := SS
        refine ⟨s2, hb1, ?_⟩
        intro g R hR hne
        cases g with
        | zero =>
          rw [feedLoop] at hR
          exact absurd hR.symm hne
        | succ g2 =>
          refine ⟨g2 + 1, ?_⟩
          rw [feedLoop, heq]
          rw [feedLoop] at hR
          exact hR
      | fail e1 ex1 buf1 =>
        rw [hs] at h
        simp only [] at h
        cases h
      | crash f1 =>
        rw [hs] at h
        simp only [] at h
        cases h
    · intro e ex' buf' h
      rw [feedLoop] at h
      cases hs : feedStep lit dict ex ⟨some c, s⟩ with
      | next ex1 buf1 =>
        rw [hs] at h SS
        simp only [] at h SS
        obtain ⟨s1, hb1, hn1⟩ := SS
        subst hb1
        obtain ⟨s2, hbuf, f2, hf2⟩ := (ih ex1 c s1 o).2.1 e ex' buf' h
        refine ⟨s2, hbuf, f2 + 1, ?_⟩
        rw [feedLoop, hn1]
        exact hf2
      | full ex1 buf1 =>
        rw [hs] at h
        simp only [] at h
        cases h
      | fail e1 ex1 buf1 =>
        rw [hs] at h SS
        simp only [] at h SS
        cases h
        obtain ⟨s2, hb1, hn1⟩ := SS
        refine ⟨s2, hb1, 0 + 1, ?_⟩
        rw [feedLoop, hn1]
      | crash f1 =>
        rw [hs] at h
        simp only [] at h
        cases h
    · intro f0 h
      rw [feedLoop] at h
      cases hs : feedStep lit dict ex ⟨some c, s⟩ with
      | next ex1 buf1 =>
        rw [hs] at h SS
        simp only [] at h SS
        obtain ⟨s1, hb1, hn1⟩ := SS
        subst hb1
        obtain ⟨f2, hf2⟩ := (ih ex1 c s1 o).2.2 f0 h
        refine ⟨f2 + 1, ?_⟩
        rw [feedLoop, hn1]
        exact hf2
      | full ex1 buf1 =>
        rw [hs] at h
        simp only [] at h
        cases h
      | fail e1 ex1 buf1 =>
        rw [hs] at h
        simp only [] at h
        cases h
      | crash f1 =>
        rw [hs] at h SS
        simp only [] at h SS
        cases h
        refine ⟨0 + 1, ?_⟩
        rw [feedLoop, SS]
/-- The `explode_with_buffer` driver loop with a bounded buffer, against the
same driver with an unbounded buffer holding the drained output so far: every
non-out-of-fuel bounded result is also produced by the unbounded driver at
some fuel. -/
theorem drSim :
    ∀ (dfuel ifuel c : Nat) (ex : Explode) (s out data : List Nat) (r : ExResult),
      ewbLoop dfuel ifuel ex ⟨some c, s⟩ out data = r → r ≠ .outOfFuel →
      ∃ df f2, ewbLoop df f2 ex ⟨none, out ++ s⟩ [] data = r := by
  intro dfuel
  induction dfuel with
  | zero =>
    intro ifuel c ex s out data r h hne
    rw [ewbLoop] at h
    exact absurd h.symm hne
  | succ n ih =>
    intro ifuel c ex s out data r h hne
    cases data with
    | nil =>
      rw [ewbLoop] at h
      refine ⟨0 + 1, 0, ?_⟩
      rw [ewbLoop]
      exact h
    | cons b rest =>
      rw [ewbLoop] at h
      rw [feed_eq_headerRun] at h
      cases hh : headerRun ex b with
      | crash f0 =>
        rw [hh] at h
        simp only [] at h
        refine ⟨0 + 1, 0 + 1, ?_⟩
        rw [ewbLoop, feed_eq_headerRun, hh]
        exact h
      | err e exH =>
        rw [hh] at h
        simp only [] at h
        cases e with
        | IncompleteInput =>
          simp only [] at h
          obtain ⟨df2, if2, h2⟩ := ih ifuel c exH s out rest r h hne
          refine ⟨df2 + 1, if2, ?_⟩
          rw [ewbLoop, feed_eq_headerRun, hh]
          exact h2
        | BadLiteralFlag =>
          simp only [] at h
          refine ⟨0 + 1, 0 + 1, ?_⟩
          rw [ewbLoop, feed_eq_headerRun, hh]
          exact h
        | BadDictionary =>
          simp only [] at h
          refine ⟨0 + 1, 0 + 1, ?_⟩
          rw [ewbLoop, feed_eq_headerRun, hh]
          exact h
        | BadDistance =>
          simp only [] at h
          refine ⟨0 + 1, 0 + 1, ?_⟩
          rw [ewbLoop, feed_eq_headerRun, hh]
          exact h
      | ok lit dict exH =>
        rw [hh] at h
        simp only [] at h
        obtain ⟨hnwH, hlH, hdH⟩ := headerRun_ok_fields ex b lit dict exH hh
        obtain ⟨FS1, FS2, FS3⟩ := flSim lit dict ifuel exH c s out
        cases hfl : feedLoop ifuel lit dict exH ⟨some c, s⟩ with
        | outOfFuel =>
          rw [hfl] at h
          simp only [] at h
          exact absurd h.symm hne
        | crash f0 =>
          rw [hfl] at h
          simp only [] at h
          obtain ⟨f2, hf2⟩ := FS3 f0 hfl
          refine ⟨0 + 1, f2, ?_⟩
          rw [ewbLoop, feed_eq_headerRun, hh]
          simp only []
          rw [hf2]
          exact h
        | err e ex1 buf1 =>
          rw [hfl] at h
          obtain ⟨s1, hb1, f2, hf2⟩ := FS2 e ex1 buf1 hfl
          subst hb1
          cases e with
          | IncompleteInput =>
            simp only [] at h
            obtain ⟨df2, if2, h2⟩ := ih ifuel c ex1 s1 out rest r h hne
            refine ⟨df2 + 1, max f2 if2, ?_⟩
            rw [ewbLoop, feed_eq_headerRun, hh]
            simp only []
            rw [feedLoop_mono_le f2 (max f2 if2) lit dict exH ⟨none, out ++ s⟩ _ hf2
              (by simp) (le_max_left _ _)]
            simp only []
            exact ewbLoop_mono df2 df2 if2 (max f2 if2) ex1 ⟨none, out ++ s1⟩ [] rest r
              h2 hne (le_refl _) (le_max_right _ _)
          | BadLiteralFlag =>
            simp only [] at h
            refine ⟨0 + 1, f2, ?_⟩
            rw [ewbLoop, feed_eq_headerRun, hh]
            simp only []
            rw [hf2]
            exact h
          | BadDictionary =>
            simp only [] at h
            refine ⟨0 + 1, f2, ?_⟩
            rw [ewbLoop, feed_eq_headerRun, hh]
            simp only []
            rw [hf2]
            exact h
          | BadDistance =>
            simp only [] at h
            refine ⟨0 + 1, f2, ?_⟩
            rw [ewbLoop, feed_eq_headerRun, hh]
            simp only []
            rw [hf2]
            exact h
        | ok ex1 buf1 =>
          rw [hfl] at h
          simp only [] at h
          obtain ⟨s1, hb1, P⟩ := FS1 ex1 buf1 hfl
          subst hb1
          by_cases hend : ex1.state = .End
          · rw [if_pos hend] at h
            simp only [] at h
            have hone := feedLoop_end lit dict ex1 ⟨none, out ++ s1⟩ hend
            obtain ⟨f2, hf2⟩ := P (0 + 1) _ hone (by simp)
            refine ⟨0 + 1, f2, ?_⟩
            rw [ewbLoop, feed_eq_headerRun, hh]
            simp only []
            rw [hf2]
            simp only []
            rw [if_pos hend]
            exact h
          · rw [if_neg hend] at h
            simp only [] at h
            obtain ⟨df2, if2, h2⟩ := ih ifuel c ex1 [] (out ++ s1) (b :: rest) r h hne
            rw [List.append_nil] at h2
            obtain ⟨hnw1, hl1, hd1⟩ :=
              feedLoop_keeps lit dict ifuel exH ⟨some c, s⟩ ex1 ⟨some c, s1⟩ hnwH hfl
            rw [hlH] at hl1
            rw [hdH] at hd1
            cases df2 with
            | zero =>
              rw [ewbLoop] at h2
              exact absurd h2.symm hne
            | succ d =>
              have hRne : feedLoop if2 lit dict ex1 ⟨none, out ++ s1⟩ ≠ .outOfFuel := by
                intro hoof
                rw [ewbLoop] at h2
                rw [resumeFeed lit dict ex1 hl1 hd1 hnw1 if2 ⟨none, out ++ s1⟩ b] at h2
                rw [hoof] at h2
                simp only [] at h2
                exact hne h2.symm
              obtain ⟨f1, hf1⟩ := P if2 _ rfl hRne
              refine ⟨d + 1, max f1 if2, ?_⟩
              have hfeq : Explode.feed (max f1 if2) ex ⟨none, out ++ s⟩ b =
                  Explode.feed (max f1 if2) ex1 ⟨none, out ++ s1⟩ b := by
                rw [resumeFeed lit dict ex1 hl1 hd1 hnw1 (max f1 if2) ⟨none, out ++ s1⟩ b]
                rw [feed_eq_headerRun, hh]
                simp only []
                rw [feedLoop_mono_le f1 (max f1 if2) lit dict exH ⟨none, out ++ s⟩ _
                  hf1 hRne (le_max_left _ _)]
                rw [feedLoop_mono_le if2 (max f1 if2) lit dict ex1 ⟨none, out ++ s1⟩ _
                  rfl hRne (le_max_right _ _)]
              rw [driverShift d (max f1 if2) ex ex1 (out ++ s) (out ++ s1) [] b rest hfeq]
              exact ewbLoop_mono (d + 1) (d + 1) if2 (max f1 if2) ex1 ⟨none, out ++ s1⟩
                [] (b :: rest) r h2 hne (le_refl _) (le_max_right _ _)
/-- Claim C6 (confirmed): for every input byte sequence and every
output-buffer size of at least 1 byte, `explode_with_buffer` produces the
same result regardless of the buffer's size — the same `Ok` output byte
sequence, or the same error kind — so decoding through a 1-byte buffer with
repeated fill/drain cycles equals decoding through the default 4096-byte
buffer used by `explode`.  Stated over the fueled embedding: any two runs
whose iteration budgets do not run out yield the same result; in particular
the fill/drain suspensions introduced by a small buffer change nothing. -/
theorem c6_buffer_size_independent (data : List Nat) (c1 c2 df1 if1 df2 if2 : Nat)
    (hc1 : 1 ≤ c1) (hc2 : 1 ≤ c2)
    (hn1 : explode_with_buffer df1 if1 data c1 ≠ .outOfFuel)
    (hn2 : explode_with_buffer df2 if2 data c2 ≠ .outOfFuel) :
    explode_with_buffer df1 if1 data c1 = explode_with_buffer df2 if2 data c2 := by
  obtain ⟨da, fa, ha⟩ := drSim df1 if1 c1 Explode.new [] [] data _ rfl hn1
  obtain ⟨db, fb, hb⟩ := drSim df2 if2 c2 Explode.new [] [] data _ rfl hn2
  have ha2 := ewbLoop_mono da (max da db) fa (max fa fb) Explode.new ⟨none, [] ++ []⟩
    [] data _ ha hn1 (le_max_left _ _) (le_max_left _ _)
  have hb2 := ewbLoop_mono db (max da db) fb (max fa fb) Explode.new ⟨none, [] ++ []⟩
    [] data _ hb hn2 (le_max_right _ _) (le_max_right _ _)
  exact ha2.symm.trans hb2

/-- Witness for C6: on the 3-byte prefix `[0x00, 0x04, 0x82]` of the crate's
doctest input, a 1-byte output buffer and the default 4096-byte buffer give
the same result (both report `IncompleteInput`). -/
theorem c6_buffer_size_independent_witness :
    (1 ≤ 1 ∧ 1 ≤ 4096 ∧
      explode_with_buffer 100 100 [0, 4, 130] 1 ≠ .outOfFuel ∧
      explode_with_buffer 100 100 [0, 4, 130] 4096 ≠ .outOfFuel) ∧
    explode_with_buffer 100 100 [0, 4, 130] 1 =
      explode_with_buffer 100 100 [0, 4, 130] 4096 :=
  ⟨⟨by decide, by decide, by decide, by decide⟩,
    c6_buffer_size_independent [0, 4, 130] 1 4096 100 100 100 100
      (by decide) (by decide) (by decide) (by decide)⟩
